import Mathlib

/-!
Verification development for the story-editor repository.

The TypeScript sources are shallowly embedded: React state updates become
explicit state-passing functions, `null`-able fields become `Option`, JS
arrays become `List`, and the regex-based text extraction is re-implemented
as character-list scanners that follow the behaviour of the source regexes.
External services (the generative-text HTTP API, `JSON.parse`, the speech
endpoints, the audio clock) are passed in as explicit parameters, since their
behaviour is outside the program.
-/

namespace StoryEditor

/-- Characters that the scanners treat as whitespace, mirroring the common
cases of the JS `\s` class on the texts this app handles (ASCII whitespace
plus the full-width space). -/
def isJsWs (c : Char) : Bool :=
  c = ' ' || c = '\t' || c = '\n' || c = '\r' || c = '　'

/-- The `{` character, from its code point. -/
def lbrace : Char := Char.ofNat 123

/-- The `}` character, from its code point. -/
def rbrace : Char := Char.ofNat 125

/-- The single-quote character, from its code point. -/
def squote : Char := Char.ofNat 39

/-- The double-quote character, from its code point. -/
def dquote : Char := Char.ofNat 34

/-- Decimal value of a digit-character list (most significant first); used to
show that `Nat.toString` is injective, which makes the generated version ids
`v1`, `v2`, ... pairwise distinct. -/
def digitsVal (l : List Char) : Nat :=
  l.foldl (fun a c => 10 * a + (c.toNat - 48)) 0

/-- `relationships` entries of a character: `{ to, type }` pairs
(`src/README.md`, interface `Character`).  The source field `to` is a Lean
keyword and is rendered `toId` here. -/
structure Rel where
  toId : String
  type : String
deriving DecidableEq, Repr

/-- A story character (`src/README.md`, interface `Character`; also declared in
`src/unnamed/part_000`). -/
structure Character where
  id : String
  name : String
  description : String
  relationships : List Rel
deriving DecidableEq, Repr

/-- A flowchart node as produced by `extractFlowchart` and edited by
`FlowchartView`: `{ id, data: { label }, position: { x, y } }`, flattened. -/
structure FlowNode where
  id : String
  label : String
  x : Nat
  y : Nat
deriving DecidableEq, Repr

/-- A flowchart edge `{ id, source, target, type, animated }`. -/
structure FlowEdge where
  id : String
  source : String
  target : String
  type : String
  animated : Bool
deriving DecidableEq, Repr

/-- The `{ nodes, edges }` object returned by `extractFlowchart`. -/
structure Flowchart where
  nodes : List FlowNode
  edges : List FlowEdge
deriving DecidableEq, Repr

/-- The structured part of `analyzeText`'s result (`GeminiResponse` in
`src/README.md`): the raw reply text itself is not stored by the version
store, so it is omitted here.  A `null` flowchart is `none`. -/
structure Analysis where
  flowchart : Option Flowchart
  characters : List Character
  plot : List String
deriving DecidableEq, Repr

/-- `StoryVersion` (`src/unnamed/part_000`): one snapshot of the story. -/
structure StoryVersion where
  id : String
  name : String
  text : String
  flowchartData : Option Flowchart
  characters : List Character
  plot : List String
  timestamp : Nat
  description : String
  parentVersionId : Option String
deriving DecidableEq, Repr

/-!
### Flowchart extraction (`extractFlowchart` in `src/README.md`)

The extractor splits the matched diagram block in lines, trims them, drops
empty ones, then runs a node pass (regex `([A-Z])\[(.*?)\]` with the `g`
flag) and an edge pass (`-->` splitting).  The node regex is embedded as a
left-to-right scanner: at an uppercase letter followed by `[`, the lazy label
group stops at the first `]`, and scanning resumes after the match; a failed
attempt advances one character, just as the regex engine does.
-/

/-- Split a character list at the first character satisfying `p`, returning
the prefix, the matched character, and the rest. -/
def splitAtFirst (p : Char → Bool) : List Char → Option (List Char × Char × List Char)
  | [] => none
  | c :: cs =>
    if p c then some ([], c, cs)
    else
      match splitAtFirst p cs with
      | none => none
      | some (pre, d, post) => some (c :: pre, d, post)

/-- All matches of `([A-Z])\[(.*?)\]` in one line, left to right; each match
yields the captured letter (as the one-character id string) and the label.
The fuel argument only bounds the recursion: every step consumes at least one
input character, so `fuel = length` never runs out. -/
def nodeTokensAux : Nat → List Char → List (String × String)
  | 0, _ => []
  | _, [] => []
  | fuel + 1, c :: cs =>
    if c.isUpper then
      match cs with
      | '[' :: rest =>
        match splitAtFirst (fun d => d = ']') rest with
        | some (label, _, post) =>
          (String.singleton c, String.mk label) :: nodeTokensAux fuel post
        | none => nodeTokensAux fuel cs
      | _ => nodeTokensAux fuel cs
    else nodeTokensAux fuel cs

/-- Node tokens of one line. -/
def nodeTokens (line : String) : List (String × String) :=
  nodeTokensAux line.toList.length line.toList

/-- `split('\n')` on a character list: the segments between newline
characters (a trailing newline yields a final empty segment, as in JS). -/
def splitOnNewline : List Char → List (List Char)
  | [] => [[]]
  | c :: cs =>
    if c = '\n' then [] :: splitOnNewline cs
    else
      match splitOnNewline cs with
      | h :: t => (c :: h) :: t
      | [] => [[c]]

/-- `trim()`: drop whitespace from both ends. -/
def trimChars (l : List Char) : List Char :=
  ((l.dropWhile isJsWs).reverse.dropWhile isJsWs).reverse

/-- The trimmed, non-empty lines of the diagram block
(`flowchartSection[1].split('\n').map(l => l.trim()).filter(Boolean)`). -/
def blockLines (block : String) : List String :=
  ((splitOnNewline block.toList).map (fun l => String.mk (trimChars l))).filter
    (fun l => l ≠ "")

/-- First pass of `extractFlowchart`: push a node for a token only when no
node with that id exists yet, stacking positions vertically. -/
def buildNodes : List (String × String) → List FlowNode → List FlowNode
  | [], acc => acc
  | (id, label) :: ts, acc =>
    if acc.any (fun n => n.id = id) then buildNodes ts acc
    else buildNodes ts (acc ++ [⟨id, label, 100, 100 + acc.length * 100⟩])

/-- Second pass of `extractFlowchart`: a line containing `-->` produces an
edge between the first letters of its two trimmed halves, when both start
with an uppercase letter; malformed lines yield nothing. -/
def edgeOfLine (idx : Nat) (line : String) : Option FlowEdge :=
  match (line.splitOn "-->").map String.trim with
  | fromPart :: toPart :: _ =>
    match fromPart.toList, toPart.toList with
    | c :: _, d :: _ =>
      if c.isUpper && d.isUpper then
        some ⟨"e" ++ toString idx, String.singleton c, String.singleton d, "smoothstep", false⟩
      else none
    | _, _ => none
  | _ => none

/-- `extractFlowchart`, modelled from the matched diagram block (the text
captured between ` ```mermaid graph TD ` and the closing fence). -/
def extractFlowchart (block : String) : Flowchart :=
  let lines := blockLines block
  ⟨buildNodes (lines.flatMap nodeTokens) [],
   (lines.enum).filterMap (fun p => edgeOfLine p.1 p.2)⟩

/-- All node-token ids of a diagram block, in match order. -/
def tokenIds (block : String) : List String :=
  ((blockLines block).flatMap nodeTokens).map Prod.fst

/-!
### The version store (`App` in `src/unnamed/part_000`)

`App`'s React state that the store claims are about.  The displayed
`text`/`flowchartData`/`characters` mirrors are not part of the store
invariants and are omitted.
-/

/-- The store-relevant part of `App`'s state. -/
structure AppState where
  versions : List StoryVersion
  currentVersionIndex : Nat
  isCompareMode : Bool
  compareVersionIndex : Option Nat
deriving DecidableEq, Repr

/-- The initial `useState` values. -/
def initialAppState : AppState := ⟨[], 0, false, none⟩

/-- `handleTextChange`: below 50 characters nothing happens; otherwise, when
the store is empty, the analysis result becomes the root version `v1` with no
parent.  (With a non-empty store only the displayed text is updated, which is
not modelled.) -/
def handleTextChange (s : AppState) (newText : String) (analysis : Analysis) (now : Nat) :
    AppState :=
  if newText.length < 50 then s
  else if s.versions = [] then
    { s with
      versions := [⟨"v1", "初期バージョン", newText, analysis.flowchart,
        analysis.characters, analysis.plot, now, "", none⟩],
      currentVersionIndex := 0 }
  else s

/-- `createNewVersion`: the id and default name are derived from the current
store length. -/
def createNewVersion (s : AppState) (newText description : String) (analysis : Analysis)
    (now : Nat) (parentVersionId : String) : StoryVersion :=
  ⟨"v" ++ toString (s.versions.length + 1),
   "バージョン " ++ toString (s.versions.length + 1),
   newText, analysis.flowchart, analysis.characters, analysis.plot, now, description,
   some parentVersionId⟩

/-- The common shape of `handleModifyText`, `handleModifyEntireText`,
`handleCharactersEdit` and `handleGenerateStoryFromFlowchart`: append a new
version whose parent is the currently active version, then activate it.  The
source reads `versions[currentVersionIndex].id` directly, which its callers
only do with a valid index; an out-of-range index is modelled as a no-op. -/
def appendVersion (s : AppState) (newText description : String) (analysis : Analysis)
    (now : Nat) : AppState :=
  match s.versions[s.currentVersionIndex]? with
  | none => s
  | some cur =>
    { s with
      versions := s.versions ++ [createNewVersion s newText description analysis now cur.id],
      currentVersionIndex := s.versions.length }

/-- `handleVersionChange`: activate the version at `index`.  The source reads
`versions[index]` unguarded and is only called with tab indices of existing
versions; an out-of-range index is modelled as a no-op. -/
def handleVersionChange (s : AppState) (index : Nat) : AppState :=
  if index < s.versions.length then { s with currentVersionIndex := index } else s

/-- `toggleCompareMode`: the compare button is only rendered when
`versions.length > 1`; turning compare on picks the previous version (or
index 1 when the first is active), turning it off clears the selection. -/
def toggleCompareMode (s : AppState) : AppState :=
  if s.versions.length ≤ 1 then s
  else if s.isCompareMode then { s with isCompareMode := false, compareVersionIndex := none }
  else
    { s with
      isCompareMode := true,
      compareVersionIndex :=
        some (if s.currentVersionIndex > 0 then s.currentVersionIndex - 1 else 1) }

/-- `handleVersionNameEditStart` refuses index 0 and `handleVersionNameSave`
stores the edited name; combined into one renaming step. -/
def renameVersion (s : AppState) (index : Nat) (newName : String) : AppState :=
  if index = 0 then s
  else
    match s.versions[index]? with
    | none => s
    | some v => { s with versions := s.versions.set index { v with name := newName } }

/-- `handleReanalyze`: replace the structured fields of the active version in
place (id, name, text, description and parent are kept). -/
def handleReanalyze (s : AppState) (analysis : Analysis) (now : Nat) : AppState :=
  match s.versions[s.currentVersionIndex]? with
  | none => s
  | some v =>
    { s with
      versions := s.versions.set s.currentVersionIndex
        { v with
          flowchartData := analysis.flowchart,
          characters := analysis.characters,
          plot := analysis.plot,
          timestamp := now } }

/-- The active-index update of `handleVersionDelete`: `handleVersionChange(
indexToDelete - 1)` when the active version is the deleted one, a decrement
when it sits behind the deleted slot, unchanged otherwise. -/
def deleteActiveIndex (currentVersionIndex indexToDelete : Nat) : Nat :=
  if currentVersionIndex = indexToDelete then indexToDelete - 1
  else if currentVersionIndex > indexToDelete then currentVersionIndex - 1
  else currentVersionIndex

/-- The compare-selection update of `handleVersionDelete`: clear compare mode
when the compared version is the deleted one, decrement an index behind the
deleted slot, keep anything else. -/
def deleteCompare (isCompareMode : Bool) (compareVersionIndex : Option Nat)
    (indexToDelete : Nat) : Bool × Option Nat :=
  if isCompareMode ∧ compareVersionIndex = some indexToDelete then (false, none)
  else
    match compareVersionIndex with
    | some c =>
      if c > indexToDelete then (isCompareMode, some (c - 1))
      else (isCompareMode, compareVersionIndex)
    | none => (isCompareMode, compareVersionIndex)

/-- `handleVersionDelete`: index 0 is refused; otherwise the version is
removed (`versions.filter((_, index) => index !== indexToDelete)`, i.e.
`eraseIdx`) and the indices are updated as above — all branches read the
pre-deletion state, as the source handlers do. -/
def handleVersionDelete (s : AppState) (indexToDelete : Nat) : AppState :=
  if indexToDelete = 0 then s
  else
    { versions := s.versions.eraseIdx indexToDelete,
      currentVersionIndex := deleteActiveIndex s.currentVersionIndex indexToDelete,
      isCompareMode := (deleteCompare s.isCompareMode s.compareVersionIndex indexToDelete).1,
      compareVersionIndex := (deleteCompare s.isCompareMode s.compareVersionIndex indexToDelete).2 }

/-- One user-triggered store operation. -/
inductive StoreStep : AppState → AppState → Prop
  | textChange (s : AppState) (t : String) (a : Analysis) (now : Nat) :
      StoreStep s (handleTextChange s t a now)
  | append (s : AppState) (t d : String) (a : Analysis) (now : Nat) :
      StoreStep s (appendVersion s t d a now)
  | change (s : AppState) (i : Nat) : StoreStep s (handleVersionChange s i)
  | toggle (s : AppState) : StoreStep s (toggleCompareMode s)
  | rename (s : AppState) (i : Nat) (n : String) : StoreStep s (renameVersion s i n)
  | reanalyze (s : AppState) (a : Analysis) (now : Nat) :
      StoreStep s (handleReanalyze s a now)
  | delete (s : AppState) (i : Nat) : StoreStep s (handleVersionDelete s i)

/-- States reachable from the initial state by store operations. -/
inductive Reachable : AppState → Prop
  | init : Reachable initialAppState
  | step {s s' : AppState} : Reachable s → StoreStep s s' → Reachable s'

/-- A store operation other than deletion. -/
inductive StoreStepND : AppState → AppState → Prop
  | textChange (s : AppState) (t : String) (a : Analysis) (now : Nat) :
      StoreStepND s (handleTextChange s t a now)
  | append (s : AppState) (t d : String) (a : Analysis) (now : Nat) :
      StoreStepND s (appendVersion s t d a now)
  | change (s : AppState) (i : Nat) : StoreStepND s (handleVersionChange s i)
  | toggle (s : AppState) : StoreStepND s (toggleCompareMode s)
  | rename (s : AppState) (i : Nat) (n : String) : StoreStepND s (renameVersion s i n)
  | reanalyze (s : AppState) (a : Analysis) (now : Nat) :
      StoreStepND s (handleReanalyze s a now)

/-- States reachable without ever deleting a version. -/
inductive ReachableND : AppState → Prop
  | init : ReachableND initialAppState
  | step {s s' : AppState} : ReachableND s → StoreStepND s s' → ReachableND s'

/-- Spec predicate: every non-root parent reference resolves to a version
currently in the store. -/
def parentsResolve (vs : List StoryVersion) : Prop :=
  ∀ v ∈ vs, v.parentVersionId = none ∨ ∃ p ∈ vs, v.parentVersionId = some p.id

instance (vs : List StoryVersion) : Decidable (parentsResolve vs) := by
  unfold parentsResolve; infer_instance

/-- Spec predicate: exactly one version is the root (null parent). -/
def uniqueRoot (vs : List StoryVersion) : Prop :=
  vs.countP (fun v => v.parentVersionId = none) = 1

instance (vs : List StoryVersion) : Decidable (uniqueRoot vs) := by
  unfold uniqueRoot; infer_instance

/-- The id list a deletion-free store must carry: version `k` is `v(k+1)`. -/
def canonicalIds (n : Nat) : List String :=
  (List.range n).map (fun k => "v" ++ toString (k + 1))

/-!
### Relationship analysis bookkeeping (`analyzeVersionRelationships` in
`src/unnamed/part_000` and the `analyzeRelationships` effect of
`src/src/components/VersionMap.tsx`)

The analyzer itself is an HTTP call; here it is an abstract function from the
two versions to a result.  Caches are association lists in insertion order.
-/

/-- The branch point returned by the relationship analyzer. -/
structure BranchPoint where
  source : String
  target : String
  label : String
deriving DecidableEq, Repr

/-- The relationship analyzer's result: a nullable branch point plus the
shared node labels. -/
structure RelResult where
  branchPoint : Option BranchPoint
  sharedNodes : List String
deriving DecidableEq, Repr

/-- The parent→child pairs of the store, resolving `parentVersionId` with
`versions.find(...)` exactly as the source does. -/
def parentEdgesV (vs : List StoryVersion) : List (StoryVersion × StoryVersion) :=
  vs.filterMap (fun c =>
    (c.parentVersionId.bind (fun pid => vs.find? (fun p => p.id = pid))).map
      (fun p => (p, c)))

/-- The parent→child id pairs of the store. -/
def parentIdEdges (vs : List StoryVersion) : List (String × String) :=
  (parentEdgesV vs).map (fun pc => (pc.1.id, pc.2.id))

/-- The loop body of `App.analyzeVersionRelationships`: walk the versions,
skip those without a resolvable parent, and record
`newCache[`${version.id}-${parentVersion.id}`] = analyze(parent, version)`.
`all` is the full list the parent lookup runs over. -/
def appRelCacheAux (all : List StoryVersion) (analyze : StoryVersion → StoryVersion → RelResult) :
    List StoryVersion → List (String × RelResult)
  | [] => []
  | v :: rest =>
    match v.parentVersionId with
    | none => appRelCacheAux all analyze rest
    | some pid =>
      match all.find? (fun p => p.id = pid) with
      | none => appRelCacheAux all analyze rest
      | some p => (v.id ++ "-" ++ p.id, analyze p v) :: appRelCacheAux all analyze rest

/-- `App.analyzeVersionRelationships`: the cache built by the manual
"reanalyze" action. -/
def analyzeVersionRelationships (vs : List StoryVersion)
    (analyze : StoryVersion → StoryVersion → RelResult) : List (String × RelResult) :=
  appRelCacheAux vs analyze vs

/-- The version pairs (by id) for which the `VersionMap` component's own
effect invokes the analyzer: consecutive positions `i-1`, `i` whose
flowcharts are both present. -/
def versionMapCalls : List StoryVersion → List (String × String)
  | v0 :: v1 :: rest =>
    (if v1.flowchartData.isSome && v0.flowchartData.isSome then [(v0.id, v1.id)] else []) ++
      versionMapCalls (v1 :: rest)
  | _ => []

/-- The cache built by `VersionMap.analyzeRelationships` starting at position
`i`: entries are keyed `${i}-${i-1}` by position, not by version ids. -/
def versionMapCacheAux (analyze : StoryVersion → StoryVersion → RelResult) :
    Nat → List StoryVersion → List (String × RelResult)
  | i, v0 :: v1 :: rest =>
    (if v1.flowchartData.isSome && v0.flowchartData.isSome then
      [(toString (i + 1) ++ "-" ++ toString i, analyze v0 v1)]
    else []) ++ versionMapCacheAux analyze (i + 1) (v1 :: rest)
  | _, _ => []

/-- The cache built by `VersionMap.analyzeRelationships` when the dialog
opens. -/
def versionMapCache (vs : List StoryVersion)
    (analyze : StoryVersion → StoryVersion → RelResult) : List (String × RelResult) :=
  versionMapCacheAux analyze 0 vs

/-!
### Character diff (`modifyStoryWithCharacters` in `src/README.md`)
-/

/-- The three diff categories of `CharacterChange.type`. -/
inductive ChangeType
  | modified
  | added
  | deleted
deriving DecidableEq, Repr

/-- The per-field change flags of a modified character. -/
structure CharacterChangeFlags where
  name : Bool
  description : Bool
  relationships : Bool
deriving DecidableEq, Repr

/-- One entry of the character diff (`CharacterChange` in `src/README.md`). -/
structure CharacterChange where
  type : ChangeType
  original : Option Character
  modified : Option Character
  changes : Option CharacterChangeFlags
deriving DecidableEq, Repr

/-- The entry `modifyStoryWithCharacters` builds for one modified-list
character: a `modified` entry when an original with the same id exists (with
flags comparing each field — `relationships` via `JSON.stringify`, i.e.
structural equality), an `added` entry otherwise. -/
def diffEntryFor (originals : List Character) (m : Character) : CharacterChange :=
  match originals.find? (fun c => c.id = m.id) with
  | some o =>
    ⟨ChangeType.modified, some o, some m,
      some ⟨decide (o.name ≠ m.name), decide (o.description ≠ m.description),
        decide (o.relationships ≠ m.relationships)⟩⟩
  | none => ⟨ChangeType.added, none, some m, none⟩

/-- The `deletedCharacters` of `modifyStoryWithCharacters`: originals whose
id no longer occurs in the modified list. -/
def deletedEntriesFor (originals modifieds : List Character) : List CharacterChange :=
  (originals.filter (fun o => ¬ modifieds.any (fun m => m.id = o.id))).map
    (fun o => ⟨ChangeType.deleted, some o, none, none⟩)

/-- The diff computed by `modifyStoryWithCharacters` (`allChanges` =
`characterChanges ++ deletedCharacters`). -/
def characterChanges (originals modifieds : List Character) : List CharacterChange :=
  modifieds.map (diffEntryFor originals) ++ deletedEntriesFor originals modifieds

/-- The id a diff entry is about: the modified character's id for
`modified`/`added` entries, the original's for `deleted` ones. -/
def changeId (e : CharacterChange) : Option String :=
  match e.modified with
  | some m => some m.id
  | none => e.original.map (fun o => o.id)

/-!
### Relationship-reply parsing (`analyzeFlowchartRelationship` in
`src/README.md`)

The function extracts the `{...}` span of the reply (`/\{[\s\S]*\}/`, i.e.
from the first opening to the last closing brace), tries `JSON.parse`, on
failure applies one regex repair pass (`cleanedJson`) and retries, and on any
error resolves with `{ branchPoint: null, sharedNodes: [] }`.  `JSON.parse`
is the platform's parser and is passed in abstractly; the repair regexes are
embedded as scanners below.
-/

/-- `responseText.match(/\{[\s\S]*\}/)`: the span from the first `{` to the
last `}`, when the latter comes after the former. -/
def jsonMatch (s : String) : Option String :=
  match s.toList.dropWhile (fun c => c ≠ lbrace) with
  | [] => none
  | _ :: rest =>
    match rest.reverse.dropWhile (fun c => c ≠ rbrace) with
    | [] => none
    | revBody => some (String.mk (lbrace :: revBody.reverse))

/-- Repair pass 1: `.replace(/(\r\n|\n|\r)/gm, '')` removes every CR and
LF. -/
def stripNewlines (l : List Char) : List Char :=
  l.filter (fun c => c ≠ '\n' && c ≠ '\r')

/-- Repair pass 2: `.replace(/,\s*([\]}])/g, '$1')` drops a comma standing
before a closing bracket or brace.  Each step consumes at least one input
character, so `fuel = length` suffices. -/
def removeTrailingCommasAux : Nat → List Char → List Char
  | 0, l => l
  | _, [] => []
  | fuel + 1, c :: cs =>
    if c = ',' then
      match cs.dropWhile isJsWs with
      | b :: rest =>
        if b = ']' ∨ b = rbrace then b :: removeTrailingCommasAux fuel rest
        else c :: removeTrailingCommasAux fuel cs
      | [] => c :: removeTrailingCommasAux fuel cs
    else c :: removeTrailingCommasAux fuel cs

/-- Repair pass 3: `.replace(/([{,])\s*([^"'\s].*?):\s*/g, '$1"$2":')` quotes
a bare key after `{` or `,` (the lazy group stops at the first colon; the
whitespace around the key is consumed by the match and dropped). -/
def quoteKeysAux : Nat → List Char → List Char
  | 0, l => l
  | _, [] => []
  | fuel + 1, c :: cs =>
    if c = lbrace ∨ c = ',' then
      match cs.dropWhile isJsWs with
      | k :: krest =>
        if k ≠ dquote ∧ k ≠ squote ∧ ¬ isJsWs k then
          match splitAtFirst (fun d => d = ':') krest with
          | some (keyRest, _, afterColon) =>
            c :: dquote :: (k :: keyRest) ++
              dquote :: ':' :: quoteKeysAux fuel (afterColon.dropWhile isJsWs)
          | none => c :: quoteKeysAux fuel cs
        else c :: quoteKeysAux fuel cs
      | [] => c :: quoteKeysAux fuel cs
    else c :: quoteKeysAux fuel cs

/-- Repair pass 4: `.replace(/:\s*([^"'\s{[].*?)([,}])/g, ':"$1"$2')` quotes
a bare value after a colon (the lazy group stops at the first comma or
closing brace). -/
def quoteValuesAux : Nat → List Char → List Char
  | 0, l => l
  | _, [] => []
  | fuel + 1, c :: cs =>
    if c = ':' then
      match cs.dropWhile isJsWs with
      | v :: vrest =>
        if v ≠ dquote ∧ v ≠ squote ∧ ¬ isJsWs v ∧ v ≠ lbrace ∧ v ≠ '[' then
          match splitAtFirst (fun d => d = ',' ∨ d = rbrace) vrest with
          | some (valRest, delim, after) =>
            c :: dquote :: (v :: valRest) ++ dquote :: delim :: quoteValuesAux fuel after
          | none => c :: quoteValuesAux fuel cs
        else c :: quoteValuesAux fuel cs
      | [] => c :: quoteValuesAux fuel cs
    else c :: quoteValuesAux fuel cs

/-- The repair pipeline applied to the extracted JSON text (`cleanedJson`). -/
def cleanedJson (s : String) : String :=
  let l1 := stripNewlines s.toList
  let l2 := removeTrailingCommasAux l1.length l1
  let l3 := quoteKeysAux l2.length l2
  String.mk (quoteValuesAux l3.length l3)

/-- What the code reads off a successfully parsed reply: the `branchPoint`
field (absent or null becomes `none`) and the `sharedNodes` field when it is
an array (`none` models a missing or non-array value). -/
structure ParsedResult where
  branchPoint : Option BranchPoint
  sharedNodes : Option (List String)
deriving DecidableEq, Repr

/-- Build the resolved value from a parsed reply:
`{ branchPoint: parsedResult.branchPoint,
   sharedNodes: Array.isArray(parsedResult.sharedNodes) ? ... : [] }`. -/
def relResultOfParsed (pr : ParsedResult) : RelResult :=
  ⟨pr.branchPoint, pr.sharedNodes.getD []⟩

/-- The empty result the catch-all handler resolves with. -/
def emptyRelResult : RelResult := ⟨none, []⟩

/-- `analyzeFlowchartRelationship`, from the point where the HTTP reply (or
its failure) is known.  `response` is the awaited reply text or a rejection;
`jsonParse` is the platform `JSON.parse` followed by the field reads,
returning `none` when parsing throws.  The function always resolves: every
failure path lands in `emptyRelResult`. -/
def analyzeFlowchartRelationship (response : Except Unit String)
    (jsonParse : String → Option ParsedResult) : RelResult :=
  match response with
  | Except.error _ => emptyRelResult
  | Except.ok responseText =>
    match jsonMatch responseText with
    | none => emptyRelResult
    | some j =>
      match jsonParse j with
      | some pr => relResultOfParsed pr
      | none =>
        match jsonParse (cleanedJson j) with
        | some pr => relResultOfParsed pr
        | none => emptyRelResult

/-!
### Audio (`AudioPlayer`/`generateAudio` in `src/unnamed/part_000`,
`TextEditor` in `src/src/components/TextEditor.tsx`)
-/

/-- The observable state of one `AudioPlayer`: the decoded buffer (an
abstract handle), the paused offset, whether a source node is connected, and
the playing flag.  Clock-derived quantities stay abstract. -/
structure AudioPlayerState where
  buffer : Option Nat
  offset : Rat
  sourceActive : Bool
  isPlaying : Bool
deriving DecidableEq, Repr

/-- `AudioPlayer.reset`: stop and disconnect the source, clear the playing
flag and zero the offset.  The decoded buffer is untouched. -/
def AudioPlayerState.reset (p : AudioPlayerState) : AudioPlayerState :=
  { p with sourceActive := false, isPlaying := false, offset := 0 }

/-- The `state` field of `TextEditor`'s per-version audio state. -/
inductive PlaybackUiState
  | initial
  | playing
  | paused
deriving DecidableEq, Repr

/-- One entry of `TextEditor`'s `audioStates` map. -/
structure AudioState where
  player : AudioPlayerState
  state : PlaybackUiState
  isGenerating : Bool
deriving DecidableEq, Repr

/-- The version-switch effect of `TextEditor` (lines 184–207): when the index
changed, the previous slot's key `v(prevIndex+1)` is removed outright if no
version with that id remains, and otherwise its player is `reset()` and its
UI state set back to `initial`. -/
def versionSwitchEffect (previousVersionIndex versionIndex : Nat) (versionIds : List String)
    (audioStates : String → Option AudioState) : String → Option AudioState :=
  if previousVersionIndex = versionIndex then audioStates
  else
    let prevVersion := "v" ++ toString (previousVersionIndex + 1)
    if ¬ versionIds.contains prevVersion then
      fun k => if k = prevVersion then none else audioStates k
    else
      match audioStates prevVersion with
      | some st =>
        fun k =>
          if k = prevVersion then some { st with player := st.player.reset, state := .initial }
          else audioStates k
      | none => audioStates

/-- `MAX_TEXT_LENGTH` (`TextEditor.tsx`, line 11). -/
def MAX_TEXT_LENGTH : Nat := 500

/-- `isAudioEnabled`: `text.length > 0 && text.length <= MAX_TEXT_LENGTH`. -/
def isAudioEnabled (text : String) : Bool :=
  text.length > 0 && text.length ≤ MAX_TEXT_LENGTH

/-- The externally visible actions `handlePlayAudio` can take. -/
inductive AudioEffect
  | generateAudioCall
  | playCall
  | pauseCall
deriving DecidableEq, Repr

/-- `handlePlayAudio`, for the audio state of the current version: the guard
returns immediately when audio is not enabled; a playing state is paused
(`clockTime` models `getCurrentTime()`); otherwise a missing buffer is
generated and loaded (`newBuffer` models the decoded result, `loadAudio`
zeroes the offset) and playback starts. -/
def handlePlayAudio (text : String) (st : AudioState) (clockTime : Rat) (newBuffer : Nat) :
    AudioState × List AudioEffect :=
  if ¬ isAudioEnabled text then (st, [])
  else if st.state = .playing then
    ({ st with
        player := { st.player with offset := clockTime, sourceActive := false, isPlaying := false },
        state := .paused },
      [AudioEffect.pauseCall])
  else if text = "" then (st, [])
  else
    let (st1, effects) :=
      if st.player.buffer = none then
        ({ st with
            player := { st.player with buffer := some newBuffer, offset := 0 },
            isGenerating := false },
          [AudioEffect.generateAudioCall])
      else (st, ([] : List AudioEffect))
    ({ st1 with
        player := { st1.player with sourceActive := true, isPlaying := true },
        state := .playing },
      effects ++ [AudioEffect.playCall])

/-- `convertToReadableText`: the trimmed reply on success, the input text
unchanged on any failure (the catch handler returns `text`). -/
def convertToReadableText (text : String) (api : Except Unit String) : String :=
  match api with
  | Except.ok result => result.trim
  | Except.error _ => text

/-- Collapse every run of characters satisfying `p` to the single character
`r` (used for `/\n+/g → '。'` and `/\s+/g → '、'`). -/
def replaceRunsAux (p : Char → Bool) (r : Char) : Nat → List Char → List Char
  | 0, l => l
  | _, [] => []
  | fuel + 1, c :: cs =>
    if p c then r :: replaceRunsAux p r fuel (cs.dropWhile p)
    else c :: replaceRunsAux p r fuel cs

/-- Is this one of the punctuation marks `、。！？`? -/
def isJpPunct (c : Char) : Bool :=
  c = '、' || c = '。' || c = '！' || c = '？'

/-- `/[、。！？]+/g → match[0]`: collapse a punctuation run to its first
character. -/
def collapsePunctRunsAux : Nat → List Char → List Char
  | 0, l => l
  | _, [] => []
  | fuel + 1, c :: cs =>
    if isJpPunct c then c :: collapsePunctRunsAux fuel (cs.dropWhile isJpPunct)
    else c :: collapsePunctRunsAux fuel cs

/-- `/([、。！？])\s+/g → '$1'`: drop whitespace following a punctuation
mark. -/
def dropWsAfterPunctAux : Nat → List Char → List Char
  | 0, l => l
  | _, [] => []
  | fuel + 1, c :: cs =>
    if isJpPunct c then c :: dropWsAfterPunctAux fuel (cs.dropWhile isJsWs)
    else c :: dropWsAfterPunctAux fuel cs

/-- `.replace(/([^、。！？])\s*$/g, '$1。')`: the leftmost position whose
character is not one of `、。！？` and is followed only by whitespace is kept
together with `。`, the trailing whitespace after it being consumed.  With a
non-punctuation last non-whitespace character this appends `。` after it and
drops the trailing whitespace; with a punctuation one followed by whitespace
the first whitespace character is the captured group; with no match the text
is unchanged. -/
def ensureSentenceEnd (l : List Char) : List Char :=
  let rev := l.reverse
  let ws := rev.takeWhile isJsWs
  let core := rev.dropWhile isJsWs
  match core with
  | [] =>
    match l with
    | [] => []
    | c :: _ => [c, '。']
  | c :: _ =>
    if isJpPunct c then
      match ws.reverse with
      | [] => l
      | w :: _ => core.reverse ++ [w, '。']
    else core.reverse ++ ['。']

/-- `preprocessText` (`src/unnamed/part_000`, lines 20–31): the five
replacement passes in source order. -/
def preprocessText (s : String) : String :=
  let l1 := replaceRunsAux (fun c => c = '\n') '。' s.toList.length s.toList
  let l2 := ensureSentenceEnd l1
  let l3 := collapsePunctRunsAux l2.length l2
  let l4 := dropWsAfterPunctAux l3.length l3
  String.mk (replaceRunsAux isJsWs '、' l4.length l4)

/-- The synthesis query object, abstracted to the one field the code
touches (`speedScale`) plus an opaque rest. -/
structure SynthQuery where
  speedScale : Rat
  rest : Nat
deriving DecidableEq, Repr

/-- The VOICEVOX half of `generateAudio`: obtain the query for the processed
text, slow it down for speaker 13, synthesize.  Failures of either fetch
propagate (the catch handler rethrows). -/
def voicevoxPipeline (processedText : String) (speakerId : Nat)
    (audioQuery : String → Except Unit SynthQuery)
    (synthesis : SynthQuery → Except Unit Nat) : Except Unit Nat :=
  match audioQuery processedText with
  | Except.error e => Except.error e
  | Except.ok queryJson =>
    let q := if speakerId = 13 then { queryJson with speedScale := (7 : Rat) / 10 } else queryJson
    synthesis q

/-- `generateAudio`: convert the text to readable form (never failing),
preprocess it, then run the VOICEVOX pipeline. -/
def generateAudio (text : String) (speakerId : Nat) (convApi : Except Unit String)
    (audioQuery : String → Except Unit SynthQuery)
    (synthesis : SynthQuery → Except Unit Nat) : Except Unit Nat :=
  voicevoxPipeline (preprocessText (convertToReadableText text convApi)) speakerId
    audioQuery synthesis

/-!
### Concrete fixtures used by witnesses and counterexamples
-/

/-- A 50-character text, long enough for `handleTextChange` to analyze. -/
def fiftyAs : String := String.mk (List.replicate 50 'a')

/-- An analysis result with an (empty but present) flowchart. -/
def emptyAnalysis : Analysis := ⟨some ⟨[], []⟩, [], []⟩

/-- Root plus two chained children: `v1 ← v2 ← v3`. -/
def chainState3 : AppState :=
  appendVersion
    (appendVersion (handleTextChange initialAppState fiftyAs emptyAnalysis 0)
      "t2" "d2" emptyAnalysis 1)
    "t3" "d3" emptyAnalysis 2

/-- The chain after the middle version `v2` is deleted. -/
def chainDeleted : AppState := handleVersionDelete chainState3 1

/-- A fresh version appended after that deletion. -/
def chainDeletedPlus : AppState := appendVersion chainDeleted "t4" "d4" emptyAnalysis 3

/-- The chain with compare mode switched on (compare index 1, active 2). -/
def chainCompare3 : AppState := toggleCompareMode chainState3

/-- Root with two children branching from it: `v2` and `v3` both have parent
`v1` (the user switched back to the root before the second rewrite). -/
def branchState3 : AppState :=
  appendVersion
    (handleVersionChange
      (appendVersion (handleTextChange initialAppState fiftyAs emptyAnalysis 0)
        "t2" "d2" emptyAnalysis 1)
      0)
    "t3" "d3" emptyAnalysis 2

/-- A probe analyzer that records which two versions it was called on. -/
def probeAnalyze (p c : StoryVersion) : RelResult := ⟨none, [p.id, c.id]⟩

/-- A concrete original character list for the diff witness. -/
def charactersOriginalW : List Character :=
  [⟨"c1", "アリス", "主人公", []⟩, ⟨"c2", "ボブ", "友人", []⟩]

/-- A concrete modified character list: `c1` edited, `c2` removed, `c3`
added. -/
def charactersModifiedW : List Character :=
  [⟨"c1", "アリス", "主人公で勇者", []⟩, ⟨"c3", "キャロル", "新しい仲間", []⟩]

/-- A paused audio state with a decoded buffer and a non-zero offset. -/
def audioPausedState : AudioState := ⟨⟨some 7, 5, false, false⟩, PlaybackUiState.paused, false⟩

/-- An `audioStates` map holding only the paused state under key `v2`. -/
def audioStatesW : String → Option AudioState :=
  fun k => if k = "v2" then some audioPausedState else none

/-!
## Supporting lemmas

First, `Nat.toString` (i.e. `Nat.repr`) is injective, by a round trip through
the decimal value of the digit list.  This is what makes the generated ids
`v1`, `v2`, ... pairwise distinct.
-/

theorem digitChar_toNat_sub : ∀ d < 10, (Nat.digitChar d).toNat - 48 = d := by decide

theorem toDigitsCore_fuel_irrel (n : Nat) : ∀ (f₁ f₂ : Nat) (ds : List Char), n < f₁ → n < f₂ →
    Nat.toDigitsCore 10 f₁ n ds = Nat.toDigitsCore 10 f₂ n ds := by
  induction n using Nat.strong_induction_on with
  | _ n ih =>
    intro f₁ f₂ ds h₁ h₂
    cases f₁ with
    | zero => omega
    | succ g₁ =>
      cases f₂ with
      | zero => omega
      | succ g₂ =>
        simp only [Nat.toDigitsCore]
        by_cases h0 : n / 10 = 0
        · simp [h0]
        · simp only [h0, if_false]
          have hlt : n / 10 < n := Nat.div_lt_self (by omega) (by omega)
          exact ih (n / 10) hlt g₁ g₂ _ (by omega) (by omega)

theorem toDigitsCore_prepend (n : Nat) : ∀ (f : Nat) (ds : List Char), n < f →
    Nat.toDigitsCore 10 f n ds = Nat.toDigitsCore 10 f n [] ++ ds := by
  induction n using Nat.strong_induction_on with
  | _ n ih =>
    intro f ds h
    cases f with
    | zero => omega
    | succ g =>
      simp only [Nat.toDigitsCore]
      by_cases h0 : n / 10 = 0
      · simp [h0]
      · simp only [h0, if_false]
        have hlt : n / 10 < n := Nat.div_lt_self (by omega) (by omega)
        rw [ih (n / 10) hlt g _ (by omega), ih (n / 10) hlt g [Nat.digitChar (n % 10)] (by omega)]
        simp

theorem digitsVal_snoc (A : List Char) (d : Char) :
    digitsVal (A ++ [d]) = 10 * digitsVal A + (d.toNat - 48) := by
  simp [digitsVal, List.foldl_append]

theorem digitsVal_toDigits (n : Nat) : digitsVal (Nat.toDigits 10 n) = n := by
  induction n using Nat.strong_induction_on with
  | _ n ih =>
    show digitsVal (Nat.toDigitsCore 10 (n + 1) n []) = n
    by_cases h0 : n / 10 = 0
    · have hrepr : Nat.toDigitsCore 10 (n + 1) n [] = [Nat.digitChar (n % 10)] := by
        simp [Nat.toDigitsCore, h0]
      have hn : n < 10 := (Nat.div_eq_zero_iff (by omega)).mp h0
      rw [hrepr]
      have : digitsVal [Nat.digitChar (n % 10)] = (Nat.digitChar (n % 10)).toNat - 48 := by
        simp [digitsVal]
      rw [this, digitChar_toNat_sub (n % 10) (Nat.mod_lt _ (by omega)), Nat.mod_eq_of_lt hn]
    · have hn : 0 < n := by
        rcases Nat.eq_zero_or_pos n with h | h
        · subst h; simp at h0
        · exact h
      have hlt : n / 10 < n := Nat.div_lt_self hn (by omega)
      have step : Nat.toDigitsCore 10 (n + 1) n [] =
          Nat.toDigitsCore 10 n (n / 10) [Nat.digitChar (n % 10)] := by
        simp [Nat.toDigitsCore, h0]
      rw [step, toDigitsCore_prepend (n / 10) n _ (by omega),
        toDigitsCore_fuel_irrel (n / 10) n (n / 10 + 1) [] (by omega) (by omega)]
      have hdig : Nat.toDigitsCore 10 (n / 10 + 1) (n / 10) [] = Nat.toDigits 10 (n / 10) := rfl
      rw [hdig, digitsVal_snoc, ih (n / 10) hlt,
        digitChar_toNat_sub (n % 10) (Nat.mod_lt _ (by omega))]
      omega

theorem natToString_injective : Function.Injective (fun n : Nat => toString n) := by
  intro m n h
  have hdata : Nat.toDigits 10 m = Nat.toDigits 10 n := congrArg String.data h
  have := digitsVal_toDigits m
  rw [hdata, digitsVal_toDigits n] at this
  exact this.symm

theorem vId_injective : Function.Injective (fun k : Nat => "v" ++ toString (k + 1)) := by
  intro a b h
  have hdata := congrArg String.data h
  simp only [String.data_append] at hdata
  have h2 : (toString (a + 1)).data = (toString (b + 1)).data :=
    List.append_inj_right hdata rfl
  have h3 : toString (a + 1) = toString (b + 1) := String.ext h2
  have := natToString_injective h3
  omega

theorem canonicalIds_succ (n : Nat) :
    canonicalIds (n + 1) = canonicalIds n ++ ["v" ++ toString (n + 1)] := by
  simp [canonicalIds, List.range_succ]

theorem canonicalIds_nodup (n : Nat) : (canonicalIds n).Nodup :=
  List.Nodup.map vId_injective (List.nodup_range n)

theorem set_self_of_getElem? {α : Type} {l : List α} {i : Nat} {a : α}
    (h : l[i]? = some a) : l.set i a = l := by
  induction l generalizing i with
  | nil => simp at h
  | cons b bs ih =>
    cases i with
    | zero => simp at h; simp [h]
    | succ j =>
      simp only [List.getElem?_cons_succ] at h
      simp [ih h]

/-!
The shape invariant of the version list: the head is the unique root
(`parentVersionId = none`), every later version carries a parent
reference.
-/

theorem shape_set (x : StoryVersion) {v r : StoryVersion} {tl : List StoryVersion} {i : Nat}
    (hget : (r :: tl)[i]? = some v) (hpar : x.parentVersionId = v.parentVersionId)
    (hroot : r.parentVersionId = none) (htl : ∀ w ∈ tl, w.parentVersionId ≠ none) :
    ∃ r' t', (r :: tl).set i x = r' :: t' ∧ r'.parentVersionId = none ∧
      ∀ w ∈ t', w.parentVersionId ≠ none := by
  cases i with
  | zero =>
    have hv : r = v := by simpa using hget
    exact ⟨x, tl, by simp, by rw [hpar, ← hv, hroot], htl⟩
  | succ j =>
    have hvt : v ∈ tl := List.getElem?_mem (by simpa using hget)
    refine ⟨r, tl.set j x, by simp, hroot, ?_⟩
    intro w hw
    rcases List.mem_or_eq_of_mem_set hw with h | rfl
    · exact htl w h
    · rw [hpar]; exact htl v hvt

theorem reachable_shape {s : AppState} (h : Reachable s) :
    s.versions = [] ∨ ∃ r t, s.versions = r :: t ∧ r.parentVersionId = none ∧
      ∀ v ∈ t, v.parentVersionId ≠ none := by
  induction h with
  | init => left; rfl
  | step hr hstep ih =>
    rename_i s₀ s₁
    cases hstep with
    | textChange t a now =>
      by_cases h50 : t.length < 50
      · simpa [handleTextChange, h50] using ih
      · by_cases hemp : s₀.versions = []
        · right
          refine ⟨⟨"v1", "初期バージョン", t, a.flowchart, a.characters, a.plot, now, "", none⟩,
            [], ?_, rfl, by simp⟩
          simp [handleTextChange, h50, hemp]
        · simpa [handleTextChange, h50, hemp] using ih
    | append t d a now =>
      cases hv : s₀.versions[s₀.currentVersionIndex]? with
      | none => simpa [appendVersion, hv] using ih
      | some cur =>
        rcases ih with hemp | ⟨r, tl, heq, hroot, htl⟩
        · rw [hemp] at hv; simp at hv
        · right
          refine ⟨r, tl ++ [createNewVersion s₀ t d a now cur.id], ?_, hroot, ?_⟩
          · simp only [appendVersion, hv]
            simp [heq]
          · intro w hw
            rcases List.mem_append.mp hw with hmem | hmem
            · exact htl w hmem
            · have hweq : w = createNewVersion s₀ t d a now cur.id := by simpa using hmem
              subst hweq; simp [createNewVersion]
    | change i =>
      unfold handleVersionChange
      split <;> exact ih
    | toggle =>
      unfold toggleCompareMode
      split
      · exact ih
      · split <;> exact ih
    | rename i n =>
      by_cases hi : i = 0
      · simpa [renameVersion, hi] using ih
      · cases hv : s₀.versions[i]? with
        | none => simpa [renameVersion, hi, hv] using ih
        | some v =>
          rcases ih with hemp | ⟨r, tl, heq, hroot, htl⟩
          · rw [hemp] at hv; simp at hv
          · right
            have hv' : (r :: tl)[i]? = some v := by rw [← heq]; exact hv
            have hvers : (renameVersion s₀ i n).versions =
                (r :: tl).set i { v with name := n } := by
              simp only [renameVersion, if_neg hi, hv]
              simp [heq]
            rw [hvers]
            exact shape_set { v with name := n } hv' rfl hroot htl
    | reanalyze a now =>
      cases hv : s₀.versions[s₀.currentVersionIndex]? with
      | none => simpa [handleReanalyze, hv] using ih
      | some v =>
        rcases ih with hemp | ⟨r, tl, heq, hroot, htl⟩
        · rw [hemp] at hv; simp at hv
        · right
          have hv' : (r :: tl)[s₀.currentVersionIndex]? = some v := by rw [← heq]; exact hv
          have hvers : (handleReanalyze s₀ a now).versions =
              (r :: tl).set s₀.currentVersionIndex
                { v with flowchartData := a.flowchart, characters := a.characters,
                         plot := a.plot, timestamp := now } := by
            simp only [handleReanalyze, hv]
            simp [heq]
          rw [hvers]
          exact shape_set
            { v with flowchartData := a.flowchart, characters := a.characters,
                     plot := a.plot, timestamp := now } hv' rfl hroot htl
    | delete i =>
      by_cases hi : i = 0
      · simpa [handleVersionDelete, hi] using ih
      · rcases ih with hemp | ⟨r, tl, heq, hroot, htl⟩
        · left; simp [handleVersionDelete, hi, hemp]
        · right
          obtain ⟨j, rfl⟩ : ∃ j, i = j + 1 := ⟨i - 1, by omega⟩
          refine ⟨r, tl.eraseIdx j, ?_, hroot, ?_⟩
          · simp [handleVersionDelete, heq]
          · intro w hw
            exact htl w (List.mem_of_mem_eraseIdx hw)

theorem invariant_set {l : List StoryVersion} {i : Nat} {v : StoryVersion} (x : StoryVersion)
    (hget : l[i]? = some v) (hid : x.id = v.id) (hparx : x.parentVersionId = v.parentVersionId)
    (hids : l.map (fun w => w.id) = canonicalIds l.length)
    (hpar : parentsResolve l) :
    (l.set i x).map (fun w => w.id) = canonicalIds (l.set i x).length ∧
      parentsResolve (l.set i x) := by
  have hmapid : (l.set i x).map (fun w => w.id) = l.map (fun w => w.id) := by
    rw [List.map_set, hid]
    apply set_self_of_getElem?
    simp [hget]
  constructor
  · rw [hmapid, List.length_set, hids]
  · have hfind : ∀ p ∈ l, ∃ q ∈ l.set i x, q.id = p.id := by
      intro p hp
      rcases List.mem_iff_getElem?.mp hp with ⟨j, hj⟩
      by_cases hij : j = i
      · subst hij
        have hpv : p = v := by
          rw [hget] at hj
          exact (Option.some.inj hj).symm
        have hilen : j < l.length := by
          rcases List.getElem?_eq_some_iff.mp hget with ⟨hh, _⟩; exact hh
        exact ⟨x, List.mem_iff_getElem?.mpr ⟨j, by rw [List.getElem?_set_self hilen]⟩,
          by rw [hid, hpv]⟩
      · exact ⟨p,
          List.mem_iff_getElem?.mpr ⟨j, by rw [List.getElem?_set_ne (Ne.symm hij)]; exact hj⟩,
          rfl⟩
    intro w hw
    rcases List.mem_or_eq_of_mem_set hw with hmem | rfl
    · rcases hpar w hmem with hnone | ⟨p, hp, hpid⟩
      · exact Or.inl hnone
      · rcases hfind p hp with ⟨q, hq, hqid⟩
        exact Or.inr ⟨q, hq, by rw [hpid, ← hqid]⟩
    · rcases hpar v (List.getElem?_mem hget) with hnone | ⟨p, hp, hpid⟩
      · exact Or.inl (by rw [hparx, hnone])
      · rcases hfind p hp with ⟨q, hq, hqid⟩
        exact Or.inr ⟨q, hq, by rw [hparx, hpid, ← hqid]⟩

theorem reachableND_invariant {s : AppState} (h : ReachableND s) :
    s.versions.map (fun v => v.id) = canonicalIds s.versions.length ∧
      parentsResolve s.versions := by
  induction h with
  | init => exact ⟨rfl, fun v hv => absurd hv (by simp [initialAppState])⟩
  | step hr hstep ih =>
    rename_i s₀ s₁
    obtain ⟨hids, hpar⟩ := ih
    cases hstep with
    | textChange t a now =>
      by_cases h50 : t.length < 50
      · have hvs : handleTextChange s₀ t a now = s₀ := by simp [handleTextChange, h50]
        rw [hvs]; exact ⟨hids, hpar⟩
      · by_cases hemp : s₀.versions = []
        · have hvs : (handleTextChange s₀ t a now).versions =
              [⟨"v1", "初期バージョン", t, a.flowchart, a.characters, a.plot, now, "", none⟩] := by
            simp [handleTextChange, h50, hemp]
          rw [hvs]
          refine ⟨?_, ?_⟩
          · simp only [List.map_cons, List.map_nil, List.length_cons, List.length_nil]
            decide
          intro v hv
          have hveq : v = ⟨"v1", "初期バージョン", t, a.flowchart, a.characters, a.plot,
              now, "", none⟩ := by simpa using hv
          subst hveq
          exact Or.inl rfl
        · have hvs : handleTextChange s₀ t a now = s₀ := by simp [handleTextChange, h50, hemp]
          rw [hvs]; exact ⟨hids, hpar⟩
    | append t d a now =>
      cases hv : s₀.versions[s₀.currentVersionIndex]? with
      | none =>
        have hvs : appendVersion s₀ t d a now = s₀ := by simp [appendVersion, hv]
        rw [hvs]; exact ⟨hids, hpar⟩
      | some cur =>
        have hvs : (appendVersion s₀ t d a now).versions =
            s₀.versions ++ [createNewVersion s₀ t d a now cur.id] := by
          simp [appendVersion, hv]
        rw [hvs]
        constructor
        · rw [List.map_append, hids]
          have hlen : (s₀.versions ++ [createNewVersion s₀ t d a now cur.id]).length =
              s₀.versions.length + 1 := by simp
          rw [hlen, canonicalIds_succ]
          simp [createNewVersion]
        · intro v hv2
          rcases List.mem_append.mp hv2 with hmem | hmem
          · rcases hpar v hmem with hnone | ⟨p, hp, hpid⟩
            · exact Or.inl hnone
            · exact Or.inr ⟨p, List.mem_append.mpr (Or.inl hp), hpid⟩
          · have hveq : v = createNewVersion s₀ t d a now cur.id := by simpa using hmem
            subst hveq
            exact Or.inr ⟨cur, List.mem_append.mpr (Or.inl (List.getElem?_mem hv)), rfl⟩
    | change i =>
      unfold handleVersionChange
      split <;> exact ⟨hids, hpar⟩
    | toggle =>
      unfold toggleCompareMode
      split
      · exact ⟨hids, hpar⟩
      · split <;> exact ⟨hids, hpar⟩
    | rename i n =>
      by_cases hi : i = 0
      · have hvs : renameVersion s₀ i n = s₀ := by simp [renameVersion, hi]
        rw [hvs]; exact ⟨hids, hpar⟩
      · cases hv : s₀.versions[i]? with
        | none =>
          have hvs : renameVersion s₀ i n = s₀ := by simp [renameVersion, hi, hv]
          rw [hvs]; exact ⟨hids, hpar⟩
        | some v =>
          have hvs : (renameVersion s₀ i n).versions =
              s₀.versions.set i { v with name := n } := by
            simp [renameVersion, hi, hv]
          rw [hvs]
          exact invariant_set { v with name := n } hv rfl rfl hids hpar
    | reanalyze a now =>
      cases hv : s₀.versions[s₀.currentVersionIndex]? with
      | none =>
        have hvs : handleReanalyze s₀ a now = s₀ := by simp [handleReanalyze, hv]
        rw [hvs]; exact ⟨hids, hpar⟩
      | some v =>
        have hvs : (handleReanalyze s₀ a now).versions =
            s₀.versions.set s₀.currentVersionIndex
              { v with flowchartData := a.flowchart, characters := a.characters,
                       plot := a.plot, timestamp := now } := by
          simp [handleReanalyze, hv]
        rw [hvs]
        exact invariant_set
          { v with flowchartData := a.flowchart, characters := a.characters,
                   plot := a.plot, timestamp := now } hv rfl rfl hids hpar

/-!
## Claim C1
-/

/-- Claim C1 (amended): after any sequence of Version Store operations the
non-empty store contains exactly one version with `parentVersionId = null`
(the root); and, provided no deletion has occurred, every other version's
`parentVersionId` equals the id of a version currently present in the store.
(Deleting a version that has children leaves those children's parent
references dangling, so the resolution half only holds for deletion-free
sequences.) -/
theorem versionStore_root_invariant :
    (∀ s : AppState, Reachable s → s.versions ≠ [] → uniqueRoot s.versions) ∧
    (∀ s : AppState, ReachableND s → parentsResolve s.versions) := by
  constructor
  · intro s hs hne
    rcases reachable_shape hs with hemp | ⟨r, tl, heq, hroot, htl⟩
    · exact absurd hemp hne
    · unfold uniqueRoot
      rw [heq, List.countP_cons]
      have h1 : tl.countP (fun v => decide (v.parentVersionId = none)) = 0 := by
        rw [List.countP_eq_zero]
        intro v hv
        simpa using htl v hv
      simp [hroot, h1]
  · intro s hs
    exact (reachableND_invariant hs).2

/-- Witness for C1: a concrete three-version chain built by the operations is
reachable and satisfies both halves of the invariant. -/
theorem versionStore_root_invariant_witness :
    uniqueRoot chainState3.versions ∧ parentsResolve chainState3.versions := by
  have hr : Reachable chainState3 :=
    Reachable.step
      (Reachable.step
        (Reachable.step Reachable.init (StoreStep.textChange _ fiftyAs emptyAnalysis 0))
        (StoreStep.append _ "t2" "d2" emptyAnalysis 1))
      (StoreStep.append _ "t3" "d3" emptyAnalysis 2)
  have hnd : ReachableND chainState3 :=
    ReachableND.step
      (ReachableND.step
        (ReachableND.step ReachableND.init (StoreStepND.textChange _ fiftyAs emptyAnalysis 0))
        (StoreStepND.append _ "t2" "d2" emptyAnalysis 1))
      (StoreStepND.append _ "t3" "d3" emptyAnalysis 2)
  exact ⟨versionStore_root_invariant.1 chainState3 hr (by decide),
    versionStore_root_invariant.2 chainState3 hnd⟩

/-- Counterexample for C1 as stated: deleting the middle version of the
reachable chain `v1 ← v2 ← v3` leaves `v3` with `parentVersionId = "v2"`
while no version `v2` remains, so the parent-resolution half of the claimed
invariant fails on the code. -/
theorem versionStore_dangling_parent :
    Reachable chainDeleted ∧ ¬ parentsResolve chainDeleted.versions := by
  constructor
  · exact Reachable.step
      (Reachable.step
        (Reachable.step
          (Reachable.step Reachable.init (StoreStep.textChange _ fiftyAs emptyAnalysis 0))
          (StoreStep.append _ "t2" "d2" emptyAnalysis 1))
        (StoreStep.append _ "t3" "d3" emptyAnalysis 2))
      (StoreStep.delete _ 1)
  · decide

/-!
## Claim C2
-/

/-- Claim C2 (amended): for every state reachable without deletions the k-th
version carries id `v(k+1)`, so the ids are pairwise distinct.  (After a
non-root deletion a later creation reuses `v(length+1)` and can duplicate an
existing id, so the claim does not extend to deletion sequences.) -/
theorem versionStore_ids_distinct (s : AppState) (h : ReachableND s) :
    s.versions.map (fun v => v.id) = canonicalIds s.versions.length ∧
      (s.versions.map (fun v => v.id)).Nodup := by
  obtain ⟨hids, _⟩ := reachableND_invariant h
  exact ⟨hids, hids ▸ canonicalIds_nodup s.versions.length⟩

/-- Witness for C2: the concrete deletion-free chain has ids `v1`, `v2`,
`v3`, pairwise distinct. -/
theorem versionStore_ids_distinct_witness :
    chainState3.versions.map (fun v => v.id) = canonicalIds chainState3.versions.length ∧
      (chainState3.versions.map (fun v => v.id)).Nodup := by
  have hnd : ReachableND chainState3 :=
    ReachableND.step
      (ReachableND.step
        (ReachableND.step ReachableND.init (StoreStepND.textChange _ fiftyAs emptyAnalysis 0))
        (StoreStepND.append _ "t2" "d2" emptyAnalysis 1))
      (StoreStepND.append _ "t3" "d3" emptyAnalysis 2)
  exact versionStore_ids_distinct chainState3 hnd

/-- Counterexample for C2 as stated: after deleting `v2` from the chain the
store is `[v1, v3]`, and the next creation again takes id
`v(length + 1) = v3`, so a reachable state (creations plus one non-root
deletion) holds two versions with the same id. -/
theorem versionStore_id_reuse_after_delete :
    Reachable chainDeletedPlus ∧ ¬ (chainDeletedPlus.versions.map (fun v => v.id)).Nodup := by
  constructor
  · exact Reachable.step
      (Reachable.step
        (Reachable.step
          (Reachable.step
            (Reachable.step Reachable.init (StoreStep.textChange _ fiftyAs emptyAnalysis 0))
            (StoreStep.append _ "t2" "d2" emptyAnalysis 1))
          (StoreStep.append _ "t3" "d3" emptyAnalysis 2))
        (StoreStep.delete _ 1))
      (StoreStep.append _ "t4" "d4" emptyAnalysis 3)
  · decide

/-!
## Claim C3
-/

/-- Claim C3: deleting a non-root version keeps the active index and any
compare index within the bounds of the remaining list (indices are natural
numbers, and the subtractions below never truncate under the stated
hypotheses, so non-negativity is inherent): an index behind the deleted slot
is decremented, the active index moves to the preceding version when the
active version itself is deleted, and compare mode is cleared when the
compared version is deleted. -/
theorem versionDelete_keeps_indices_valid (s : AppState) (idx : Nat)
    (hidx0 : 1 ≤ idx) (hidxlt : idx < s.versions.length)
    (hcur : s.currentVersionIndex < s.versions.length)
    (hcmp : ∀ c, s.compareVersionIndex = some c → c < s.versions.length)
    (hmode : s.compareVersionIndex ≠ none → s.isCompareMode = true) :
    (handleVersionDelete s idx).versions.length = s.versions.length - 1 ∧
    (handleVersionDelete s idx).currentVersionIndex <
      (handleVersionDelete s idx).versions.length ∧
    (∀ c, (handleVersionDelete s idx).compareVersionIndex = some c →
      c < (handleVersionDelete s idx).versions.length) ∧
    (s.currentVersionIndex = idx →
      (handleVersionDelete s idx).currentVersionIndex = idx - 1) ∧
    (s.currentVersionIndex > idx →
      (handleVersionDelete s idx).currentVersionIndex = s.currentVersionIndex - 1) ∧
    (s.currentVersionIndex < idx →
      (handleVersionDelete s idx).currentVersionIndex = s.currentVersionIndex) ∧
    (s.compareVersionIndex = some idx →
      (handleVersionDelete s idx).compareVersionIndex = none ∧
      (handleVersionDelete s idx).isCompareMode = false) ∧
    (∀ c, s.compareVersionIndex = some c → c > idx →
      (handleVersionDelete s idx).compareVersionIndex = some (c - 1)) ∧
    (∀ c, s.compareVersionIndex = some c → c < idx →
      (handleVersionDelete s idx).compareVersionIndex = some c) := by
  have hne : idx ≠ 0 := by omega
  have hlen : (handleVersionDelete s idx).versions.length = s.versions.length - 1 := by
    simp [handleVersionDelete, hne, List.length_eraseIdx, hidxlt]
  have hcuridx : (handleVersionDelete s idx).currentVersionIndex =
      deleteActiveIndex s.currentVersionIndex idx := by
    simp [handleVersionDelete, hne]
  have hcmpidx : (handleVersionDelete s idx).compareVersionIndex =
      (deleteCompare s.isCompareMode s.compareVersionIndex idx).2 := by
    simp [handleVersionDelete, hne]
  have hmodeidx : (handleVersionDelete s idx).isCompareMode =
      (deleteCompare s.isCompareMode s.compareVersionIndex idx).1 := by
    simp [handleVersionDelete, hne]
  refine ⟨hlen, ?_, ?_, ?_, ?_, ?_, ?_, ?_, ?_⟩
  · rw [hcuridx, hlen]
    unfold deleteActiveIndex
    split
    · omega
    · split <;> omega
  · intro c hc
    rw [hcmpidx] at hc
    rw [hlen]
    unfold deleteCompare at hc
    by_cases hclr : s.isCompareMode ∧ s.compareVersionIndex = some idx
    · rw [if_pos hclr] at hc; simp at hc
    · rw [if_neg hclr] at hc
      cases hb : s.compareVersionIndex with
      | none => rw [hb] at hc; simp at hc
      | some c0 =>
        have hc0 : c0 < s.versions.length := hcmp c0 hb
        rw [hb] at hc
        dsimp only at hc
        by_cases hgt : c0 > idx
        · rw [if_pos hgt] at hc
          simp at hc
          omega
        · rw [if_neg hgt] at hc
          simp at hc
          have hmode' : s.isCompareMode = true := hmode (by rw [hb]; simp)
          have hcidx : c0 ≠ idx := by
            intro hcontra
            exact hclr ⟨hmode', by rw [hb, hcontra]⟩
          omega
  · intro hcuri
    rw [hcuridx]
    unfold deleteActiveIndex
    simp [hcuri]
  · intro hgt
    rw [hcuridx]
    unfold deleteActiveIndex
    rw [if_neg (by omega), if_pos hgt]
  · intro hlt
    rw [hcuridx]
    unfold deleteActiveIndex
    rw [if_neg (by omega), if_neg (by omega)]
  · intro hcmpi
    have hmode' : s.isCompareMode = true := hmode (by rw [hcmpi]; simp)
    rw [hcmpidx, hmodeidx]
    unfold deleteCompare
    rw [if_pos ⟨hmode', hcmpi⟩]
    exact ⟨rfl, rfl⟩
  · intro c hc hgt
    rw [hcmpidx]
    unfold deleteCompare
    rw [if_neg (by rw [hc]; rintro ⟨-, heq⟩; injection heq with heq; omega), hc]
    dsimp only
    rw [if_pos hgt]
  · intro c hc hlt
    rw [hcmpidx]
    unfold deleteCompare
    rw [if_neg (by rw [hc]; rintro ⟨-, heq⟩; injection heq with heq; omega), hc]
    dsimp only
    rw [if_neg (by omega)]

/-- Witness for C3: deleting index 1 of the concrete three-version store with
active index 2 and compare index 1 yields active index 1, cleared compare
mode, and in-bounds indices. -/
theorem versionDelete_keeps_indices_valid_witness :
    (1 ≤ 1 ∧ 1 < chainCompare3.versions.length ∧
      chainCompare3.currentVersionIndex < chainCompare3.versions.length) ∧
    (handleVersionDelete chainCompare3 1).currentVersionIndex <
      (handleVersionDelete chainCompare3 1).versions.length ∧
    ((handleVersionDelete chainCompare3 1).compareVersionIndex = none ∧
      (handleVersionDelete chainCompare3 1).isCompareMode = false) := by
  have hcmp3 : ∀ c, chainCompare3.compareVersionIndex = some c →
      c < chainCompare3.versions.length := by
    intro c hc
    have he : chainCompare3.compareVersionIndex = some 1 := by decide
    rw [he] at hc
    have hc1 : 1 = c := Option.some.inj hc
    rw [← hc1]
    decide
  have h := versionDelete_keeps_indices_valid chainCompare3 1 (by decide) (by decide)
    (by decide) hcmp3 (fun _ => by decide)
  exact ⟨⟨by decide, by decide, by decide⟩, h.2.1, h.2.2.2.2.2.2.1 (by decide)⟩

/-!
## Claim C4
-/

theorem snd_of_mem_map_pair {x : StoryVersion} {o : Option StoryVersion}
    {b : StoryVersion × StoryVersion} (hb : b ∈ o.map (fun p => (p, x))) : b.2 = x := by
  cases o with
  | none => simp at hb
  | some q => simp at hb; rw [← hb]

theorem countP_eq_one_of_nodup {α : Type} [DecidableEq α] {l : List α} (h : l.Nodup)
    {a : α} (ha : a ∈ l) : l.countP (fun x => x = a) = 1 := by
  induction l with
  | nil => simp at ha
  | cons b bs ih =>
    rw [List.countP_cons]
    rcases List.mem_cons.mp ha with rfl | hmem
    · have hb : a ∉ bs := (List.nodup_cons.mp h).1
      have hz : bs.countP (fun x => decide (x = a)) = 0 := by
        rw [List.countP_eq_zero]
        intro x hx
        simp only [decide_eq_true_eq]
        rintro rfl
        exact hb hx
      simp [hz]
    · have hb : b ≠ a := by
        rintro rfl
        exact (List.nodup_cons.mp h).1 hmem
      have := ih (List.nodup_cons.mp h).2 hmem
      simp [this, hb]

theorem appRelCacheAux_eq (all : List StoryVersion)
    (f : StoryVersion → StoryVersion → RelResult) :
    ∀ l : List StoryVersion,
      appRelCacheAux all f l =
        (l.filterMap (fun c =>
          (c.parentVersionId.bind (fun pid => all.find? (fun p => p.id = pid))).map
            (fun p => (p, c)))).map
          (fun pc => (pc.2.id ++ "-" ++ pc.1.id, f pc.1 pc.2)) := by
  intro l
  induction l with
  | nil => rfl
  | cons v rest ih =>
    cases hp : v.parentVersionId with
    | none => simp [appRelCacheAux, hp, ih]
    | some pid =>
      cases hf : all.find? (fun p => p.id = pid) with
      | none => simp [appRelCacheAux, hp, hf, ih]
      | some p => simp [appRelCacheAux, hp, hf, ih]

theorem parentEdgesV_mem {vs : List StoryVersion}
    (hnd : (vs.map (fun v => v.id)).Nodup) (p c : StoryVersion) :
    (p, c) ∈ parentEdgesV vs ↔ p ∈ vs ∧ c ∈ vs ∧ c.parentVersionId = some p.id := by
  constructor
  · intro h
    rcases List.mem_filterMap.mp h with ⟨c', hc', heq⟩
    cases hp : c'.parentVersionId with
    | none => rw [hp] at heq; simp at heq
    | some pid =>
      rw [hp] at heq
      cases hf : vs.find? (fun q => q.id = pid) with
      | none => simp [hf] at heq
      | some p' =>
        rw [Option.some_bind] at heq
        rw [hf, Option.map_some'] at heq
        have h2 : (p', c') = (p, c) := Option.some.inj heq
        have hpp : p' = p := congrArg Prod.fst h2
        have hcc : c' = c := congrArg Prod.snd h2
        refine ⟨hpp ▸ List.mem_of_find?_eq_some hf, hcc ▸ hc', ?_⟩
        have hpid : p'.id = pid := by simpa using List.find?_some hf
        rw [← hcc, hp, ← hpid, hpp]
  · rintro ⟨hpmem, hcmem, hpar⟩
    apply List.mem_filterMap.mpr
    refine ⟨c, hcmem, ?_⟩
    rw [hpar]
    cases hf : vs.find? (fun q => q.id = p.id) with
    | none =>
      exact absurd (List.find?_eq_none.mp hf p hpmem) (by simp)
    | some p' =>
      have hp'id : p'.id = p.id := by simpa using List.find?_some hf
      have hp'mem : p' ∈ vs := List.mem_of_find?_eq_some hf
      have hpp : p' = p := List.inj_on_of_nodup_map hnd hp'mem hpmem hp'id
      simp [hf, hpp]

theorem versionMapCacheAux_mem (f : StoryVersion → StoryVersion → RelResult) :
    ∀ (l : List StoryVersion) (i k : Nat) (v0 v1 : StoryVersion),
      l[k]? = some v0 → l[k + 1]? = some v1 →
      v1.flowchartData.isSome → v0.flowchartData.isSome →
      (toString (i + k + 1) ++ "-" ++ toString (i + k), f v0 v1) ∈
        versionMapCacheAux f i l := by
  intro l
  induction l with
  | nil => intro i k v0 v1 h0; simp at h0
  | cons a rest ih =>
    intro i k v0 v1 h0 h1 hfc1 hfc0
    cases rest with
    | nil =>
      cases k with
      | zero => simp at h1
      | succ k' => simp at h1
    | cons b rest' =>
      cases k with
      | zero =>
        simp at h0 h1
        subst h0; subst h1
        unfold versionMapCacheAux
        apply List.mem_append.mpr
        left
        simp [hfc0, hfc1]
      | succ k' =>
        rw [List.getElem?_cons_succ] at h0 h1
        have := ih (i + 1) k' v0 v1 h0 h1 hfc1 hfc0
        unfold versionMapCacheAux
        apply List.mem_append.mpr
        right
        have harith1 : i + 1 + k' = i + (k' + 1) := by omega
        rw [harith1] at this
        exact this

/-- Claim C4 (amended): the analyzer is invoked once per parent→child edge,
keyed by the composite `childId-parentId`, by the App-level
`analyzeVersionRelationships` (the manual "reanalyze" action) — with
pairwise-distinct ids its cache holds exactly one entry per edge.  The
`VersionMap` component's own effect instead analyzes consecutive positions
`i-1`, `i` whose flowcharts are present and caches under the index-composite
key `i-(i-1)`. -/
theorem relationshipCache_structure :
    (∀ (vs : List StoryVersion) (f : StoryVersion → StoryVersion → RelResult),
      analyzeVersionRelationships vs f =
        (parentEdgesV vs).map (fun pc => (pc.2.id ++ "-" ++ pc.1.id, f pc.1 pc.2))) ∧
    (∀ vs : List StoryVersion, (vs.map (fun v => v.id)).Nodup →
      ∀ p c : StoryVersion,
        ((p, c) ∈ parentEdgesV vs ↔ p ∈ vs ∧ c ∈ vs ∧ c.parentVersionId = some p.id) ∧
        ((p, c) ∈ parentEdgesV vs → (parentEdgesV vs).countP (fun e => e = (p, c)) = 1)) ∧
    (∀ (vs : List StoryVersion) (f : StoryVersion → StoryVersion → RelResult)
      (k : Nat) (v0 v1 : StoryVersion), vs[k]? = some v0 → vs[k + 1]? = some v1 →
      v1.flowchartData.isSome → v0.flowchartData.isSome →
      (toString (k + 1) ++ "-" ++ toString k, f v0 v1) ∈ versionMapCache vs f) := by
  refine ⟨?_, ?_, ?_⟩
  · intro vs f
    exact appRelCacheAux_eq vs f vs
  · intro vs hnd p c
    refine ⟨parentEdgesV_mem hnd p c, ?_⟩
    intro hmem
    have hvs : vs.Nodup := List.Nodup.of_map _ hnd
    have hedges : (parentEdgesV vs).Nodup := by
      apply List.Nodup.filterMap ?_ hvs
      intro a a' b hb hb'
      have h1 := snd_of_mem_map_pair hb
      have h2 := snd_of_mem_map_pair hb'
      rw [← h1]
      exact h2
    exact countP_eq_one_of_nodup hedges hmem
  · intro vs f k v0 v1 h0 h1 hfc1 hfc0
    have := versionMapCacheAux_mem f vs 0 k v0 v1 h0 h1 hfc1 hfc0
    simpa [versionMapCache] using this

/-- Witness for C4 (amended): on the concrete branching store the reanalyze
cache has exactly the id-keyed entries `v2-v1` and `v3-v1`, and the view's
cache contains the index-keyed entry for positions 0 and 1. -/
theorem relationshipCache_structure_witness :
    (analyzeVersionRelationships branchState3.versions probeAnalyze).map Prod.fst =
      ["v2-v1", "v3-v1"] ∧
    (("v1", "v2") ∈ parentIdEdges branchState3.versions) ∧
    (parentEdgesV branchState3.versions).countP
      (fun e => e = (branchState3.versions.get ⟨0, by decide⟩,
        branchState3.versions.get ⟨1, by decide⟩)) = 1 ∧
    (toString (0 + 1) ++ "-" ++ toString 0,
      probeAnalyze (branchState3.versions.get ⟨0, by decide⟩)
        (branchState3.versions.get ⟨1, by decide⟩)) ∈
      versionMapCache branchState3.versions probeAnalyze := by
  refine ⟨?_, by decide, ?_, ?_⟩
  · rw [relationshipCache_structure.1 branchState3.versions probeAnalyze]
    decide
  · exact (relationshipCache_structure.2.1 branchState3.versions (by decide)
      (branchState3.versions.get ⟨0, by decide⟩)
      (branchState3.versions.get ⟨1, by decide⟩)).2 (by decide)
  · exact relationshipCache_structure.2.2 branchState3.versions probeAnalyze 0
      (branchState3.versions.get ⟨0, by decide⟩) (branchState3.versions.get ⟨1, by decide⟩)
      (by decide) (by decide) (by decide) (by decide)

/-- Counterexample for C4 as stated: in the reachable branching store the
parent→child edges are (v1,v2) and (v1,v3), but the `VersionMap` effect
analyzes the consecutive pairs (v1,v2) and (v2,v3) — the edge (v1,v3) is
never analyzed by the view — and its cache keys are the position pairs
`1-0`, `2-1`, not composites of version ids. -/
theorem versionMap_not_per_parent_edge :
    Reachable branchState3 ∧
    ("v1", "v3") ∈ parentIdEdges branchState3.versions ∧
    ("v1", "v3") ∉ versionMapCalls branchState3.versions ∧
    (versionMapCache branchState3.versions probeAnalyze).map Prod.fst = ["1-0", "2-1"] := by
  refine ⟨?_, by decide, by decide, by decide⟩
  exact Reachable.step
    (Reachable.step
      (Reachable.step
        (Reachable.step Reachable.init (StoreStep.textChange _ fiftyAs emptyAnalysis 0))
        (StoreStep.append _ "t2" "d2" emptyAnalysis 1))
      (StoreStep.change _ 0))
    (StoreStep.append _ "t3" "d3" emptyAnalysis 2)

/-!
## Claim C5
-/

theorem buildNodes_countP :
    ∀ (ts : List (String × String)) (acc : List FlowNode) (i : String),
      acc.countP (fun n => n.id = i) = (if ∃ n ∈ acc, n.id = i then 1 else 0) →
      (buildNodes ts acc).countP (fun n => n.id = i) =
        if (∃ n ∈ acc, n.id = i) ∨ i ∈ ts.map Prod.fst then 1 else 0 := by
  intro ts
  induction ts with
  | nil =>
    intro acc i hInv
    simpa [buildNodes] using hInv
  | cons t ts ih =>
    intro acc i hInv
    obtain ⟨id, label⟩ := t
    by_cases hacc : acc.any (fun n => n.id = id)
    · have hstep : buildNodes ((id, label) :: ts) acc = buildNodes ts acc := by
        simp [buildNodes, hacc]
      rw [hstep, ih acc i hInv]
      by_cases hii : i = id
      · subst hii
        have hex : ∃ n ∈ acc, n.id = i := by simpa using hacc
        simp [hex]
      · have hiff : ((∃ n ∈ acc, n.id = i) ∨ i ∈ ((id, label) :: ts).map Prod.fst) ↔
            ((∃ n ∈ acc, n.id = i) ∨ i ∈ ts.map Prod.fst) := by
          simp [hii]
        rw [if_congr hiff rfl rfl]
    · set nd : FlowNode := ⟨id, label, 100, 100 + acc.length * 100⟩ with hnd
      have hstep : buildNodes ((id, label) :: ts) acc = buildNodes ts (acc ++ [nd]) := by
        simp [buildNodes, hacc, hnd]
      have hnoacc : ¬ ∃ n ∈ acc, n.id = id := by simpa using hacc
      have hndid : nd.id = id := rfl
      have hInv' : (acc ++ [nd]).countP (fun n => n.id = i) =
          (if ∃ n ∈ acc ++ [nd], n.id = i then 1 else 0) := by
        rw [List.countP_append, hInv]
        by_cases hii : i = id
        · subst hii
          have hex : ∃ n ∈ acc ++ [nd], n.id = i :=
            ⟨nd, List.mem_append.mpr (Or.inr (List.mem_singleton.mpr rfl)), hndid⟩
          rw [if_neg hnoacc, if_pos hex]
          simp [hndid]
        · have hiff2 : (∃ n ∈ acc ++ [nd], n.id = i) ↔ (∃ n ∈ acc, n.id = i) := by
            constructor
            · rintro ⟨n, hmem, hni⟩
              rcases List.mem_append.mp hmem with hmem' | hmem'
              · exact ⟨n, hmem', hni⟩
              · have hn : n = nd := List.mem_singleton.mp hmem'
                subst hn
                rw [hndid] at hni
                exact absurd hni.symm hii
            · rintro ⟨n, hmem, hni⟩
              exact ⟨n, List.mem_append.mpr (Or.inl hmem), hni⟩
          rw [if_congr hiff2 rfl rfl]
          have hz : ([nd].countP (fun n => n.id = i)) = 0 := by
            rw [List.countP_eq_zero]
            intro x hx
            have hxn : x = nd := List.mem_singleton.mp hx
            subst hxn
            simp only [decide_eq_true_eq]
            exact fun hcontra => hii hcontra.symm
          rw [hz]
          omega
      rw [hstep, ih _ i hInv']
      by_cases hii : i = id
      · subst hii
        have hex : ∃ n ∈ acc ++ [nd], n.id = i :=
          ⟨nd, List.mem_append.mpr (Or.inr (List.mem_singleton.mpr rfl)), hndid⟩
        have hmemhd : i ∈ ((i, label) :: ts).map Prod.fst := by simp
        rw [if_pos (Or.inl hex), if_pos (Or.inr hmemhd)]
      · have hiff : ((∃ n ∈ acc ++ [nd], n.id = i) ∨ i ∈ ts.map Prod.fst) ↔
            ((∃ n ∈ acc, n.id = i) ∨ i ∈ ((id, label) :: ts).map Prod.fst) := by
          constructor
          · rintro (⟨n, hmem, hni⟩ | hts)
            · rcases List.mem_append.mp hmem with hmem' | hmem'
              · exact Or.inl ⟨n, hmem', hni⟩
              · have hn : n = nd := List.mem_singleton.mp hmem'
                subst hn
                rw [hndid] at hni
                exact absurd hni.symm hii
            · refine Or.inr ?_
              simp only [List.map_cons]
              exact List.mem_cons_of_mem _ hts
          · rintro (⟨n, hmem, hni⟩ | hts)
            · exact Or.inl ⟨n, List.mem_append.mpr (Or.inl hmem), hni⟩
            · have hts' : i = id ∨ i ∈ ts.map Prod.fst := by simpa using hts
              rcases hts' with h | h
              · exact absurd h hii
              · exact Or.inr h
        rw [if_congr hiff rfl rfl]

theorem buildNodes_label :
    ∀ (ts : List (String × String)) (acc : List FlowNode) (i : String),
      ((buildNodes ts acc).find? (fun n => n.id = i)).map (fun n => n.label) =
        ((acc.find? (fun n => n.id = i)).map (fun n => n.label)).or
          ((ts.find? (fun t => t.1 = i)).map (fun t => t.2)) := by
  intro ts
  induction ts with
  | nil =>
    intro acc i
    simp [buildNodes, Option.or_none]
  | cons t ts ih =>
    intro acc i
    obtain ⟨id, label⟩ := t
    by_cases hacc : acc.any (fun n => n.id = id)
    · have hstep : buildNodes ((id, label) :: ts) acc = buildNodes ts acc := by
        simp [buildNodes, hacc]
      rw [hstep, ih acc i]
      by_cases hii : i = id
      · subst hii
        have hex : ∃ n ∈ acc, (fun n => n.id = i) n = true := by simpa using hacc
        have hsome : (acc.find? (fun n => n.id = i)).isSome := by
          rw [List.find?_isSome]
          simpa using hex
        obtain ⟨n0, hn0⟩ := Option.isSome_iff_exists.mp hsome
        rw [hn0]
        simp
      · have hcons : ((id, label) :: ts).find? (fun t => t.1 = i) =
            ts.find? (fun t => t.1 = i) := by
          apply List.find?_cons_of_neg
          simp
          intro hcontra
          exact absurd hcontra.symm hii
        rw [hcons]
    · have hstep : buildNodes ((id, label) :: ts) acc =
          buildNodes ts (acc ++ [⟨id, label, 100, 100 + acc.length * 100⟩]) := by
        simp [buildNodes, hacc]
      rw [hstep, ih _ i]
      have hnone : acc.find? (fun n => n.id = id) = none := by
        rw [List.find?_eq_none]
        intro x hx
        simp only [decide_eq_true_eq]
        intro hcontra
        exact absurd (List.any_eq_true.mpr ⟨x, hx, by simp [hcontra]⟩) hacc
      rw [List.find?_append]
      by_cases hii : i = id
      · subst hii
        rw [hnone, Option.none_or]
        have hone : ([(⟨i, label, 100, 100 + acc.length * 100⟩ : FlowNode)].find?
            (fun n => n.id = i)) = some ⟨i, label, 100, 100 + acc.length * 100⟩ := by
          apply List.find?_cons_of_pos
          simp
        have hcons : ((i, label) :: ts).find? (fun t => t.1 = i) = some (i, label) := by
          apply List.find?_cons_of_pos
          simp
        rw [hone, hcons]
        simp
      · have hskip : ([(⟨id, label, 100, 100 + acc.length * 100⟩ : FlowNode)].find?
            (fun n => n.id = i)) = none := by
          rw [List.find?_eq_none]
          intro x hx
          simp only [List.mem_singleton] at hx
          subst hx
          simp only [decide_eq_true_eq]
          intro hcontra
          exact hii hcontra.symm
        have hcons : ((id, label) :: ts).find? (fun t => t.1 = i) =
            ts.find? (fun t => t.1 = i) := by
          apply List.find?_cons_of_neg
          simp
          intro hcontra
          exact absurd hcontra.symm hii
        rw [hskip, hcons, Option.or_none]

/-- Claim C5: in every diagram block, each distinct id occurring in an
`X[label]` token yields exactly one node with that id, and that node's label
is the label of the first token with that id, in line-then-match order. -/
theorem extractFlowchart_nodes_unique (block : String) (i : String)
    (h : i ∈ tokenIds block) :
    (extractFlowchart block).nodes.countP (fun n => n.id = i) = 1 ∧
    ((extractFlowchart block).nodes.find? (fun n => n.id = i)).map (fun n => n.label) =
      (((blockLines block).flatMap nodeTokens).find? (fun t => t.1 = i)).map
        (fun t => t.2) := by
  have hnodes : (extractFlowchart block).nodes =
      buildNodes ((blockLines block).flatMap nodeTokens) [] := rfl
  constructor
  · rw [hnodes, buildNodes_countP _ [] i (by simp)]
    have hmem : i ∈ ((blockLines block).flatMap nodeTokens).map Prod.fst := h
    simp [hmem]
  · rw [hnodes, buildNodes_label _ [] i]
    simp

/-- Witness for C5: in the block `A[first] --> B[second]` / `A[third]` the id
`A` occurs twice with different labels; exactly one `A` node is produced and
it keeps the first label. -/
theorem extractFlowchart_nodes_unique_witness :
    ("A" ∈ tokenIds "A[first] --> B[second]\nA[third]") ∧
    (extractFlowchart "A[first] --> B[second]\nA[third]").nodes.countP
      (fun n => n.id = "A") = 1 ∧
    ((extractFlowchart "A[first] --> B[second]\nA[third]").nodes.find?
      (fun n => n.id = "A")).map (fun n => n.label) = some "first" := by
  have h := extractFlowchart_nodes_unique "A[first] --> B[second]\nA[third]" "A" (by decide)
  refine ⟨by decide, h.1, ?_⟩
  rw [h.2]
  decide

/-!
## Claim C6
-/

theorem changeId_diffEntryFor (originals : List Character) (m : Character) :
    changeId (diffEntryFor originals m) = some m.id := by
  unfold diffEntryFor
  cases originals.find? (fun c => c.id = m.id) <;> rfl

theorem countP_id_of_nodup (l : List Character)
    (h : (l.map (fun c => c.id)).Nodup) (i : String) :
    l.countP (fun c => c.id = i) = if i ∈ l.map (fun c => c.id) then 1 else 0 := by
  have hmap : l.countP (fun c => c.id = i) =
      (l.map (fun c => c.id)).countP (fun s => s = i) := by
    rw [List.countP_map]
    rfl
  rw [hmap]
  by_cases hm : i ∈ l.map (fun c => c.id)
  · rw [if_pos hm]
    exact countP_eq_one_of_nodup h hm
  · rw [if_neg hm]
    rw [List.countP_eq_zero]
    intro x hx
    simp only [decide_eq_true_eq]
    rintro rfl
    exact hm hx

/-- Claim C6: with id-distinct inputs, the character diff assigns each input
character id to exactly one entry, the entry's category matches which lists
the id occurs in, and a `modified` entry's flags are true exactly when the
corresponding field differs between original and modified character. -/
theorem characterDiff_partition (originals modifieds : List Character)
    (hno : (originals.map (fun c => c.id)).Nodup)
    (hnm : (modifieds.map (fun c => c.id)).Nodup) :
    (∀ i : String,
      (characterChanges originals modifieds).countP (fun e => changeId e = some i) =
        if i ∈ modifieds.map (fun c => c.id) ∨ i ∈ originals.map (fun c => c.id)
        then 1 else 0) ∧
    (∀ e ∈ characterChanges originals modifieds,
      (e.type = ChangeType.modified → ∃ o m, o ∈ originals ∧ m ∈ modifieds ∧ o.id = m.id ∧
        e.original = some o ∧ e.modified = some m ∧
        ∃ fl, e.changes = some fl ∧ (fl.name = true ↔ o.name ≠ m.name) ∧
          (fl.description = true ↔ o.description ≠ m.description) ∧
          (fl.relationships = true ↔ o.relationships ≠ m.relationships)) ∧
      (e.type = ChangeType.added → ∃ m, m ∈ modifieds ∧ e.modified = some m ∧
        m.id ∉ originals.map (fun c => c.id)) ∧
      (e.type = ChangeType.deleted → ∃ o, o ∈ originals ∧ e.original = some o ∧
        o.id ∉ modifieds.map (fun c => c.id))) := by
  constructor
  · intro i
    unfold characterChanges deletedEntriesFor
    rw [List.countP_append]
    have h1 : (modifieds.map (diffEntryFor originals)).countP
        (fun e => changeId e = some i) = modifieds.countP (fun m => m.id = i) := by
      rw [List.countP_map]
      apply List.countP_congr
      intro m _
      simp [Function.comp, changeId_diffEntryFor]
    have h2 : ((originals.filter
          (fun o => ¬ modifieds.any (fun m => m.id = o.id))).map
        (fun o => (⟨ChangeType.deleted, some o, none, none⟩ : CharacterChange))).countP
        (fun e => changeId e = some i) =
        (originals.filter (fun o => ¬ modifieds.any (fun m => m.id = o.id))).countP
          (fun o => o.id = i) := by
      rw [List.countP_map]
      apply List.countP_congr
      intro o _
      simp [Function.comp, changeId]
    rw [h1, h2, countP_id_of_nodup modifieds hnm i, List.countP_filter]
    by_cases hmi : i ∈ modifieds.map (fun c => c.id)
    · have hz : originals.countP
          (fun o => decide (o.id = i) && decide (¬ modifieds.any (fun m => m.id = o.id))) =
          0 := by
        rw [List.countP_eq_zero]
        intro o _
        simp only [Bool.and_eq_true, decide_eq_true_eq]
        rintro ⟨rfl, hnone⟩
        rcases List.mem_map.mp hmi with ⟨m, hmmem, hmid⟩
        exact hnone (List.any_eq_true.mpr ⟨m, hmmem, by simp [hmid]⟩)
      rw [hz, if_pos hmi, if_pos (Or.inl hmi)]
    · by_cases hoi : i ∈ originals.map (fun c => c.id)
      · have heq : originals.countP
            (fun o => decide (o.id = i) && decide (¬ modifieds.any (fun m => m.id = o.id))) =
            originals.countP (fun o => o.id = i) := by
          apply List.countP_congr
          intro o _
          simp only [Bool.and_eq_true, decide_eq_true_eq]
          constructor
          · rintro ⟨h, -⟩; exact h
          · rintro rfl
            refine ⟨rfl, fun hany => ?_⟩
            rcases List.any_eq_true.mp hany with ⟨m, hmmem, hmid⟩
            simp only [decide_eq_true_eq] at hmid
            exact hmi (List.mem_map.mpr ⟨m, hmmem, hmid⟩)
        rw [heq, countP_id_of_nodup originals hno i, if_neg hmi, if_pos hoi,
          if_pos (Or.inr hoi)]
      · have hz : originals.countP
            (fun o => decide (o.id = i) && decide (¬ modifieds.any (fun m => m.id = o.id))) =
            0 := by
          rw [List.countP_eq_zero]
          intro o ho
          simp only [Bool.and_eq_true, decide_eq_true_eq]
          rintro ⟨rfl, -⟩
          exact hoi (List.mem_map.mpr ⟨o, ho, rfl⟩)
        rw [hz, if_neg hmi, if_neg (by rintro (h | h); exact hmi h; exact hoi h)]
  · intro e he
    rcases List.mem_append.mp he with hm | hd
    · rcases List.mem_map.mp hm with ⟨m, hmem, rfl⟩
      cases hf : originals.find? (fun c => c.id = m.id) with
      | some o =>
        have hentry : diffEntryFor originals m =
            ⟨ChangeType.modified, some o, some m,
              some ⟨decide (o.name ≠ m.name), decide (o.description ≠ m.description),
                decide (o.relationships ≠ m.relationships)⟩⟩ := by
          unfold diffEntryFor
          rw [hf]
        rw [hentry]
        refine ⟨fun _ => ⟨o, m, List.mem_of_find?_eq_some hf, hmem,
          by simpa using List.find?_some hf, rfl, rfl,
          ⟨_, rfl, decide_eq_true_iff, decide_eq_true_iff, decide_eq_true_iff⟩⟩,
          ?_, ?_⟩
        · intro h
          exact ChangeType.noConfusion h
        · intro h
          exact ChangeType.noConfusion h
      | none =>
        have hentry : diffEntryFor originals m =
            ⟨ChangeType.added, none, some m, none⟩ := by
          unfold diffEntryFor
          rw [hf]
        rw [hentry]
        refine ⟨?_, fun _ => ⟨m, hmem, rfl, ?_⟩, ?_⟩
        · intro h
          exact ChangeType.noConfusion h
        · intro hcontra
          rcases List.mem_map.mp hcontra with ⟨c, hcmem, hcid⟩
          exact absurd (by simp [hcid] : (fun c => decide (c.id = m.id)) c = true)
            (by simpa using List.find?_eq_none.mp hf c hcmem)
        · intro h
          exact ChangeType.noConfusion h
    · unfold deletedEntriesFor at hd
      rcases List.mem_map.mp hd with ⟨o, hofil, rfl⟩
      obtain ⟨homem, hopred⟩ := List.mem_filter.mp hofil
      refine ⟨?_, ?_, fun _ => ⟨o, homem, rfl, ?_⟩⟩
      · intro h
        exact ChangeType.noConfusion h
      · intro h
        exact ChangeType.noConfusion h
      intro hcontra
      rcases List.mem_map.mp hcontra with ⟨m, hmmem, hmid⟩
      simp only [decide_eq_true_eq] at hopred
      exact hopred (List.any_eq_true.mpr ⟨m, hmmem, by simp [hmid]⟩)

/-- Witness for C6: on the concrete lists (`c1` edited, `c2` removed, `c3`
added) each id is covered by exactly one diff entry. -/
theorem characterDiff_partition_witness :
    ((charactersOriginalW.map (fun c => c.id)).Nodup ∧
      (charactersModifiedW.map (fun c => c.id)).Nodup) ∧
    (characterChanges charactersOriginalW charactersModifiedW).countP
      (fun e => changeId e = some "c1") = 1 ∧
    (characterChanges charactersOriginalW charactersModifiedW).countP
      (fun e => changeId e = some "c2") = 1 ∧
    (characterChanges charactersOriginalW charactersModifiedW).countP
      (fun e => changeId e = some "c9") = 0 := by
  have h := characterDiff_partition charactersOriginalW charactersModifiedW
    (by decide) (by decide)
  refine ⟨⟨by decide, by decide⟩, ?_, ?_, ?_⟩
  · rw [h.1 "c1"]; decide
  · rw [h.1 "c2"]; decide
  · rw [h.1 "c9"]; decide

/-!
## Claim C7
-/

/-- Claim C7: once the HTTP reply (or its failure) is known,
`analyzeFlowchartRelationship` always resolves: a rejected request or a reply
without a `{...}` span yields the empty result; when the extracted span fails
`JSON.parse`, exactly one repair pass (`cleanedJson`) is applied to the
extracted text and its parse result is used; when that also fails the empty
result (null branch point, empty shared list) is resolved. -/
theorem analyzeFlowchartRelationship_fallback :
    (∀ jsonParse : String → Option ParsedResult,
      analyzeFlowchartRelationship (Except.error ()) jsonParse = emptyRelResult) ∧
    (∀ (txt : String) (jsonParse : String → Option ParsedResult), jsonMatch txt = none →
      analyzeFlowchartRelationship (Except.ok txt) jsonParse = emptyRelResult) ∧
    (∀ (txt j : String) (jsonParse : String → Option ParsedResult) (pr : ParsedResult),
      jsonMatch txt = some j → jsonParse j = none → jsonParse (cleanedJson j) = some pr →
      analyzeFlowchartRelationship (Except.ok txt) jsonParse = relResultOfParsed pr) ∧
    (∀ (txt j : String) (jsonParse : String → Option ParsedResult),
      jsonMatch txt = some j → jsonParse j = none → jsonParse (cleanedJson j) = none →
      analyzeFlowchartRelationship (Except.ok txt) jsonParse = emptyRelResult) := by
  refine ⟨fun _ => rfl, ?_, ?_, ?_⟩
  · intro txt p hm
    simp [analyzeFlowchartRelationship, hm]
  · intro txt j p pr hm hp hc
    simp [analyzeFlowchartRelationship, hm, hp, hc]
  · intro txt j p hm hp hc
    simp [analyzeFlowchartRelationship, hm, hp, hc]

/-- Witness for C7: a concrete reply whose brace span parses neither directly
nor after the repair pass resolves with the empty result. -/
theorem analyzeFlowchartRelationship_fallback_witness :
    jsonMatch "ab\x7bbad\x7dcd" = some "\x7bbad\x7d" ∧
    analyzeFlowchartRelationship (Except.ok "ab\x7bbad\x7dcd")
      (fun _ => none) = emptyRelResult := by
  refine ⟨by decide, ?_⟩
  exact analyzeFlowchartRelationship_fallback.2.2.2 "ab\x7bbad\x7dcd" "\x7bbad\x7d"
    (fun _ => none) (by decide) rfl rfl

/-!
## Claim C8
-/

/-- Claim C8 (amended): when the active version changes, the previous slot's
audio state is deleted outright if no version with the computed previous id
remains; otherwise its player is `reset()` — the source is stopped, the
decoded buffer is kept, but the paused offset is zeroed rather than
preserved — and the UI state returns to `initial`.  Other keys are
untouched. -/
theorem versionSwitch_resets_previous (previousVersionIndex versionIndex : Nat)
    (versionIds : List String) (audioStates : String → Option AudioState) (st : AudioState)
    (hne : previousVersionIndex ≠ versionIndex) :
    (versionIds.contains ("v" ++ toString (previousVersionIndex + 1)) = false →
      versionSwitchEffect previousVersionIndex versionIndex versionIds audioStates
        ("v" ++ toString (previousVersionIndex + 1)) = none) ∧
    (versionIds.contains ("v" ++ toString (previousVersionIndex + 1)) = true →
      audioStates ("v" ++ toString (previousVersionIndex + 1)) = some st →
      versionSwitchEffect previousVersionIndex versionIndex versionIds audioStates
        ("v" ++ toString (previousVersionIndex + 1)) =
        some ⟨⟨st.player.buffer, 0, false, false⟩, PlaybackUiState.initial, st.isGenerating⟩) ∧
    (∀ k, k ≠ "v" ++ toString (previousVersionIndex + 1) →
      versionSwitchEffect previousVersionIndex versionIndex versionIds audioStates k =
        audioStates k) := by
  unfold versionSwitchEffect
  rw [if_neg hne]
  refine ⟨?_, ?_, ?_⟩
  · intro hcont
    rw [if_pos (by simpa using hcont)]
    simp
  · intro hcont hst
    rw [if_neg (by simpa using hcont), hst]
    simp [AudioPlayerState.reset]
  · intro k hk
    by_cases hcont : versionIds.contains ("v" ++ toString (previousVersionIndex + 1))
    · rw [if_neg (by simpa using hcont)]
      cases hst : audioStates ("v" ++ toString (previousVersionIndex + 1)) with
      | none => rfl
      | some st' => simp [hk]
    · rw [if_pos (by simpa using hcont)]
      simp [hk]

/-- Witness for C8 (amended): switching away from index 1 while `v2` is still
present resets its paused state (buffer kept, offset zeroed). -/
theorem versionSwitch_resets_previous_witness :
    (["v1", "v2"].contains ("v" ++ toString (1 + 1)) = true ∧ (1 : Nat) ≠ 0) ∧
    versionSwitchEffect 1 0 ["v1", "v2"] audioStatesW ("v" ++ toString (1 + 1)) =
      some ⟨⟨some 7, 0, false, false⟩, PlaybackUiState.initial, false⟩ := by
  refine ⟨⟨by decide, by decide⟩, ?_⟩
  have h := (versionSwitch_resets_previous 1 0 ["v1", "v2"] audioStatesW audioPausedState
    (by decide)).2.1 (by decide) (by decide)
  rw [h]
  rfl

/-- Counterexample for C8 as stated: the previous version `v2` is still in
the version list and is paused at offset 5 with a decoded buffer, yet after
the switch effect its offset is 0 — the paused offset is not preserved (the
decoded buffer is). -/
theorem versionSwitch_offset_not_preserved :
    (audioStatesW "v2").map (fun a => a.player.offset) = some 5 ∧
    ((versionSwitchEffect 1 0 ["v1", "v2"] audioStatesW) "v2").map
      (fun a => a.player.offset) = some 0 ∧
    ((versionSwitchEffect 1 0 ["v1", "v2"] audioStatesW) "v2").map
      (fun a => a.player.offset) ≠
      (audioStatesW "v2").map (fun a => a.player.offset) ∧
    ((versionSwitchEffect 1 0 ["v1", "v2"] audioStatesW) "v2").map
      (fun a => a.player.buffer) = some (some 7) := by
  refine ⟨by decide, by decide, by decide, by decide⟩

/-!
## Claim C9
-/

/-- Claim C9: audio is enabled exactly when the text length is strictly
positive and at most `MAX_TEXT_LENGTH = 500`; outside that range
`handlePlayAudio` returns with the state unchanged and no generation, play
or pause action. -/
theorem audioEnabled_iff_and_guard (text : String) (st : AudioState) (clockTime : Rat)
    (newBuffer : Nat) :
    MAX_TEXT_LENGTH = 500 ∧
    (isAudioEnabled text = true ↔ 0 < text.length ∧ text.length ≤ 500) ∧
    (isAudioEnabled text = false → handlePlayAudio text st clockTime newBuffer = (st, [])) := by
  refine ⟨rfl, ?_, ?_⟩
  · simp [isAudioEnabled, MAX_TEXT_LENGTH]
  · intro hdis
    unfold handlePlayAudio
    rw [if_pos (by simp [hdis])]

/-- Witness for C9: the empty text is disabled and the play handler is a
no-op on it; a one-character text is enabled. -/
theorem audioEnabled_guard_witness :
    isAudioEnabled "" = false ∧ isAudioEnabled "a" = true ∧
    handlePlayAudio "" ⟨⟨none, 0, false, false⟩, PlaybackUiState.initial, false⟩ 0 0 =
      (⟨⟨none, 0, false, false⟩, PlaybackUiState.initial, false⟩, []) := by
  refine ⟨by decide, by decide, ?_⟩
  exact (audioEnabled_iff_and_guard "" ⟨⟨none, 0, false, false⟩, PlaybackUiState.initial, false⟩
    0 0).2.2 (by decide)

/-!
## Claim C10
-/

/-- Claim C10: `convertToReadableText` resolves with the original input
whenever its API call fails, so `generateAudio` proceeds with the
unconverted text and succeeds whenever the speech pipeline itself
succeeds. -/
theorem convertToReadableText_fallback (text : String) (speakerId : Nat)
    (audioQuery : String → Except Unit SynthQuery)
    (synthesis : SynthQuery → Except Unit Nat) :
    convertToReadableText text (Except.error ()) = text ∧
    generateAudio text speakerId (Except.error ()) audioQuery synthesis =
      voicevoxPipeline (preprocessText text) speakerId audioQuery synthesis ∧
    ((∃ b, voicevoxPipeline (preprocessText text) speakerId audioQuery synthesis =
        Except.ok b) →
      ∃ b, generateAudio text speakerId (Except.error ()) audioQuery synthesis =
        Except.ok b) := by
  refine ⟨rfl, rfl, ?_⟩
  intro h
  exact h

/-- Witness for C10: with a failing conversion call and a succeeding speech
pipeline, audio generation still succeeds for a concrete text. -/
theorem convertToReadableText_fallback_witness :
    convertToReadableText "あめ です" (Except.error ()) = "あめ です" ∧
    generateAudio "あめ です" 1 (Except.error ()) (fun _ => Except.ok ⟨1, 0⟩)
      (fun _ => Except.ok 42) = Except.ok 42 ∧
    (∃ b, generateAudio "あめ です" 1 (Except.error ()) (fun _ => Except.ok ⟨1, 0⟩)
      (fun _ => Except.ok 42) = Except.ok b) := by
  have h := convertToReadableText_fallback "あめ です" 1 (fun _ => Except.ok ⟨1, 0⟩)
    (fun _ => Except.ok 42)
  refine ⟨h.1, ?_, h.2.2 ⟨42, rfl⟩⟩
  rw [h.2.1]
  rfl

end StoryEditor
